import Mathlib

/-!
Verification of the Clara pipeline operator sizing tool (cpost).

The definitions below are a shallow embedding of the Python sources:

* `src/topology_sort.py` — `PipelineDAG`, `add_input_edge`,
  `topological_sort` (Kahn's algorithm on insertion-ordered defaultdicts)
  and `topo_sort_pipeline`;
* `src/container.py` — `RawMetrics`, `Metrics`, `Container.sample_metrics`
  and `Container._process_raw_data` (exact rational arithmetic stands in
  for Python floats);
* `src/pipeline_utils.py` — the summary statistics of
  `print_operator_summary` and the identifier-acquisition step of
  `start_operator`;
* `src/triton_utils.py` — `decide_method_to_run_triton`;
* `src/utils.py` — `round_up_to_multiple`, `convert_percent_to_cores`;
* `src/clarac_utils.py` — `OperatorConfig.update_variables`.

Python dictionaries are modelled as insertion-ordered association lists,
`sys.exit` / raised exceptions as `Except.error`, and the unbounded while
loop of `topological_sort` runs on explicit fuel that is proved sufficient.
-/

namespace Cpost

/-! ## Insertion-ordered association lists (Python dict / defaultdict) -/

variable {α : Type} [DecidableEq α]

/-- Value of a key in an integer-valued dictionary, with the
`defaultdict(int)` default of 0 for a missing key. -/
def alFind : List (α × Int) → α → Int
  | [], _ => 0
  | (k, v) :: t, a => if k = a then v else alFind t a

/-- Model of `d[a] += d0` on a `defaultdict(int)`: update the entry in
place, or append `(a, d0)` when the key is new. -/
def bump : List (α × Int) → α → Int → List (α × Int)
  | [], a, d => [(a, d)]
  | (k, v) :: t, a, d => if k = a then (k, v + d) :: t else (k, v) :: bump t a d

/-- Value of a key in a list-valued dictionary, with the
`defaultdict(list)` default of the empty list for a missing key. -/
def outFind : List (α × List α) → α → List α
  | [], _ => []
  | (k, vs) :: t, a => if k = a then vs else outFind t a

/-- Model of `d[a].append(v)` on a `defaultdict(list)`. -/
def pushOut : List (α × List α) → α → α → List (α × List α)
  | [], a, v => [(a, [v])]
  | (k, vs) :: t, a, v =>
      if k = a then (k, vs ++ [v]) :: t else (k, vs) :: pushOut t a v

/-- Model of reading `d[a]` on a `defaultdict(list)`: returns the stored
value together with the possibly extended dictionary, because reading a
missing key inserts it. -/
def getOut : List (α × List α) → α → List α × List (α × List α)
  | [], a => ([], [(a, [])])
  | (k, vs) :: t, a =>
      if k = a then (vs, (k, vs) :: t)
      else
        let r := getOut t a
        (r.1, (k, vs) :: r.2)

/-- First occurrence of a key in a string dictionary, as Python lookup. -/
def dictFind : List (String × String) → String → Option String
  | [], _ => none
  | (k, v) :: t, a => if k = a then some v else dictFind t a

/-- Model of `d[a] = v` on a dict: overwrite the existing entry in place,
or append the new binding at the end. -/
def dictInsert : List (String × String) → String → String → List (String × String)
  | [], a, v => [(a, v)]
  | (k, w) :: t, a, v =>
      if k = a then (k, v) :: t else (k, w) :: dictInsert t a v

/-- Model of the Python dictionary merge `⦃**a, **b⦄` (b wins on shared
keys, order is a's order followed by b's new keys). -/
def dictMerge (a b : List (String × String)) : List (String × String) :=
  b.foldl (fun acc kv => dictInsert acc kv.1 kv.2) a

/-! ## topology_sort.py -/

/-- State of `PipelineDAG`: `input_deg_graph` is a `defaultdict(int)` of
in-degrees, `output_graph` a `defaultdict(list)` adjacency list, both in
insertion order. -/
structure PipelineDAG (α : Type) where
  input_deg_graph : List (α × Int)
  output_graph : List (α × List α)
deriving DecidableEq, Repr

def PipelineDAG.empty : PipelineDAG α := ⟨[], []⟩

/-- `PipelineDAG.add_input_edge(node, input_node)`: append `node` to the
adjacency list of `input_node`, then touch `input_node` with `+= 0` and
raise the in-degree of `node` with `+= 1`. -/
def add_input_edge (g : PipelineDAG α) (node input_node : α) : PipelineDAG α :=
  { output_graph := pushOut g.output_graph input_node node
    input_deg_graph := bump (bump g.input_deg_graph input_node 0) node 1 }

/-- Loop state of `PipelineDAG.topological_sort`. -/
structure SortState (α : Type) where
  indeg : List (α × Int)
  outg : List (α × List α)
  zero_indegree : List α
  topo_order : List α
  visited_count : Nat
deriving DecidableEq, Repr

/-- Inner for-loop of `topological_sort`: decrement the in-degree of each
output node of the current node, appending it to the zero-in-degree queue
the moment its in-degree reaches zero. -/
def processTargets : List (α × Int) → List α → List α → List (α × Int) × List α
  | indeg, queue, [] => (indeg, queue)
  | indeg, queue, i :: rest =>
      let indeg1 := bump indeg i (-1)
      let queue1 := if alFind indeg1 i = 0 then queue ++ [i] else queue
      processTargets indeg1 queue1 rest

/-- One iteration of the while loop: pop the head of the queue, read its
adjacency list (a defaultdict read, which may insert the key), process the
targets, and record the visit. -/
def stepState (s : SortState α) (cur : α) (rest : List α) : SortState α :=
  let rd := getOut s.outg cur
  let pt := processTargets s.indeg rest rd.1
  { indeg := pt.1, outg := rd.2, zero_indegree := pt.2,
    topo_order := s.topo_order ++ [cur], visited_count := s.visited_count + 1 }

/-- The while loop of `topological_sort`, on explicit fuel.  `sortFuel`
below is proved to be enough fuel for the queue to drain, so the embedding
agrees with the unbounded Python loop. -/
def sortLoop : Nat → SortState α → SortState α
  | 0, s => s
  | fuel + 1, s =>
      match s.zero_indegree with
      | [] => s
      | cur :: rest => sortLoop fuel (stepState s cur rest)

/-- Sum of the positive in-degrees; queue length plus this sum strictly
decreases at every loop iteration. -/
def sumPos : List (α × Int) → Nat
  | [] => 0
  | (_, v) :: t => v.toNat + sumPos t

def sortFuel (s : SortState α) : Nat := s.zero_indegree.length + sumPos s.indeg

/-- `PipelineDAG.topological_sort`: Kahn's algorithm.  The initial queue
holds the keys of in-degree 0 in insertion order; at the end, a mismatch
between the visit count and the key count of `output_graph` raises the
cycle error. -/
def initState (g : PipelineDAG α) : SortState α :=
  ⟨g.input_deg_graph, g.output_graph,
    (g.input_deg_graph.filter fun p => decide (p.2 = 0)).map Prod.fst, [], 0⟩

def topological_sort (g : PipelineDAG α) : Except String (List α) :=
  let sf := sortLoop (sortFuel (initState g)) (initState g)
  if sf.visited_count = sf.outg.length then Except.ok sf.topo_order
  else Except.error "There exists a cycle in the given graph"

/-- Build a `PipelineDAG` from a list of `add_input_edge` calls, each given
as the `(node, input_node)` argument pair. -/
def registeredDag (calls : List (α × α)) : PipelineDAG α :=
  calls.foldl (fun g p => add_input_edge g p.1 p.2) PipelineDAG.empty

/-! ## clarac_utils.py data model -/

/-- `ServiceConfig` of clarac_utils.py. -/
structure ServiceConfig where
  name : String
  image_n_tag : String
  command : List String
  http_connections : List (String × Nat)
deriving DecidableEq, Repr

/-- One entry of an operator's `input` list; `fromOp` models the optional
`from` key of the binding (absent ↦ `none`). -/
structure InputBinding where
  fromOp : Option String
  name : Option String
  path : String
deriving DecidableEq, Repr

/-- One entry of an operator's `output` list. -/
structure OutputBinding where
  name : Option String
  path : String
deriving DecidableEq, Repr

/-- `OperatorConfig` of clarac_utils.py.  The Python `None` defaults of
`variables`, `models` and `services` are modelled as empty lists, matching
the truthiness tests applied to them. -/
structure OperatorConfig where
  name : String
  image_n_tag : String
  command : List String
  «variables» : List (String × String)
  inputs : List InputBinding
  outputs : List OutputBinding
  models : List String := []
  services : List ServiceConfig := []
deriving DecidableEq, Repr

/-- `OperatorConfig.update_variables`: when the operator already has
variables, merge as `⦃**var_dict, **self.variables⦄`; otherwise take a
copy of the injected dictionary. -/
def OperatorConfig.update_variables (op : OperatorConfig)
    (var_dict : List (String × String)) : OperatorConfig :=
  if op.«variables» = [] then { op with «variables» := var_dict }
  else { op with «variables» := dictMerge var_dict op.«variables» }

/-! ## topo_sort_pipeline -/

/-- The edges one operator contributes: `(from_name, op.name)` for every
input binding whose `from` value is truthy (present and non-empty). -/
def opEdges (op : OperatorConfig) : List (String × String) :=
  op.inputs.filterMap fun ib =>
    match ib.fromOp with
    | some s => if s = "" then none else some (s, op.name)
    | none => none

/-- All dependency edges of an operator list, in registration order. -/
def pipelineEdges : List OperatorConfig → List (String × String)
  | [] => []
  | op :: t => opEdges op ++ pipelineEdges t

/-- The dict comprehension over operator names: a later operator with the
same name wins, as in a Python dict build. -/
def opDictFind (ops : List OperatorConfig) (n : String) : Option OperatorConfig :=
  ops.reverse.find? fun op => op.name == n

/-- The comprehension mapping sorted names back to `OperatorConfig`s; a
missing name raises Python's `KeyError`. -/
def opsOfNames (ops : List OperatorConfig) : List String → Except String (List OperatorConfig)
  | [] => Except.ok []
  | n :: t =>
      match opDictFind ops n with
      | none => Except.error "KeyError"
      | some op =>
          match opsOfNames ops t with
          | Except.error e => Except.error e
          | Except.ok l => Except.ok (op :: l)

/-- `topo_sort_pipeline`: a single-operator list is returned as a copy;
otherwise the dependency DAG is registered (one `add_input_edge` per
truthy `from` binding, in list order), sorted, and the name sequence is
mapped back through the operator dictionary. -/
def topo_sort_pipeline (operators : List OperatorConfig) : Except String (List OperatorConfig) :=
  if operators.length = 1 then Except.ok operators
  else
    let dag := operators.foldl
      (fun g op => op.inputs.foldl
        (fun g ib =>
          match ib.fromOp with
          | some s => if s = "" then g else add_input_edge g op.name s
          | none => g) g)
      PipelineDAG.empty
    match topological_sort dag with
    | Except.error msg => Except.error msg
    | Except.ok seq => opsOfNames operators seq

/-! ## container.py -/

/-- `RawMetrics` of container.py; rationals stand in for Python floats,
`per_cpu` keeps the raw per-core bytes, which the computation never uses. -/
structure RawMetrics where
  timestamp : ℚ
  cpu : ℚ
  per_cpu : List Nat
  sys_cpu : ℚ
  memory : ℚ
deriving DecidableEq, Repr

/-- `Metrics` of container.py (memory in MB). -/
structure Metrics where
  timestamp : ℚ
  cpu_percent : ℚ
  memory : ℚ
deriving DecidableEq, Repr

def NS_PER_S : ℚ := 1000000000

def B_MB_FACTOR : ℚ := 1000000

/-- `Container._process_raw_data`: average the timestamps and memory, and
compute the cpu percentage from the container and host cpu deltas; the
online core count is the `ONLINE_CPUS` constant, passed explicitly. -/
def process_raw_data (online_cpus : ℚ) (prev cur : RawMetrics) : Metrics :=
  let ts_avg := (prev.timestamp + cur.timestamp) / 2
  let cpu_delta := (cur.cpu - prev.cpu) / NS_PER_S
  let sys_cpu_delta := cur.sys_cpu - prev.sys_cpu
  let cpu_percent :=
    if 0 < cpu_delta ∧ 0 < sys_cpu_delta then cpu_delta / sys_cpu_delta * online_cpus * 100
    else 0
  let memory_avg := (prev.memory + cur.memory) / 2 / B_MB_FACTOR
  ⟨ts_avg, cpu_percent, memory_avg⟩

/-- The lists a `Container` accumulates while sampling. -/
structure ContainerState where
  raw_metrics : List RawMetrics
  metrics : List Metrics
deriving DecidableEq, Repr

/-- One call of `Container.sample_metrics` with the accounting files'
reading as input: `none` models the `FileNotFoundError` / errno-19 exit
(the files vanished mid-read, nothing is appended); on a successful read
the raw sample is appended, and from the second raw sample on the two most
recent raw samples are processed into one `Metrics` entry. -/
def sample_metrics (online_cpus : ℚ) (c : ContainerState)
    (reading : Option RawMetrics) : ContainerState :=
  match reading with
  | none => c
  | some raw =>
      match c.raw_metrics.getLast? with
      | some prev =>
          ⟨c.raw_metrics ++ [raw], c.metrics ++ [process_raw_data online_cpus prev raw]⟩
      | none => ⟨c.raw_metrics ++ [raw], c.metrics⟩

/-- A whole sampling run of `sample_operator`: fold `sample_metrics` over
the sequence of reads, starting from the freshly constructed container. -/
def run_sampling (online_cpus : ℚ) (readings : List (Option RawMetrics)) : ContainerState :=
  readings.foldl (sample_metrics online_cpus) ⟨[], []⟩

/-! ## utils.py and print_operator_summary -/

/-- `round_up_to_multiple` of utils.py: `math.ceil(x / base) * base`. -/
def round_up_to_multiple (x base : ℚ) : ℚ := (⌈x / base⌉ : ℚ) * base

/-- `convert_percent_to_cores` of utils.py: `int(math.ceil(x / 100.0))`. -/
def convert_percent_to_cores (x : ℚ) : ℤ := ⌈x / 100⌉

/-- Python `round` to an integer: round half to even. -/
def pyRoundInt (x : ℚ) : ℤ :=
  let f := ⌊x⌋
  if x - f < 1 / 2 then f
  else if 1 / 2 < x - f then f + 1
  else if f % 2 = 0 then f
  else f + 1

/-- Python `round(x, 3)`. -/
def pyRound3 (x : ℚ) : ℚ := (pyRoundInt (x * 1000) : ℚ) / 1000

/-- Python `max` on a list; the 0 for the empty list is never used, since
the summary is only taken over a non-empty metrics list. -/
def maxList : List ℚ → ℚ
  | [] => 0
  | h :: t => t.foldl max h

/-- The statistics `print_operator_summary` computes and displays. -/
structure OperatorSummary where
  cpu_avg : ℚ
  cpu_max : ℚ
  memory_avg : ℚ
  memory_max : ℚ
  recommended_cpu : ℤ
  recommended_memory : ℚ
deriving DecidableEq, Repr

/-- `print_operator_summary` of pipeline_utils.py: rounded average and
maximum of cpu and memory over the derived metrics, the recommended core
count from the cpu maximum, and the recommended memory from the memory
maximum plus a 100 MB buffer rounded up to a multiple of 256. -/
def print_operator_summary (metrics : List Metrics) : OperatorSummary :=
  let cpu_data := metrics.map Metrics.cpu_percent
  let cpu_avg := pyRound3 (cpu_data.sum / metrics.length)
  let cpu_max := pyRound3 (maxList cpu_data)
  let memory_data := metrics.map Metrics.memory
  let memory_avg := pyRound3 (memory_data.sum / metrics.length)
  let memory_max := pyRound3 (maxList memory_data)
  ⟨cpu_avg, cpu_max, memory_avg, memory_max,
    convert_percent_to_cores cpu_max, round_up_to_multiple (memory_max + 100) 256⟩

/-! ## triton_utils.py -/

/-- `RUN_MODE` of triton_utils.py. -/
inductive RUN_MODE
  | MODEL_REPO
  | PIPELINE_SERVICES
  | NO_INFERENCE_SERVER
deriving DecidableEq, Repr

/-- `decide_method_to_run_triton`: scan all operators for declared models
and services; both present is a fatal configuration error, else models win
over services over the no-inference-server default. -/
def decide_method_to_run_triton (op_configs : List OperatorConfig) : Except String RUN_MODE :=
  let model_repo := op_configs.any fun op => decide (op.models ≠ [])
  let services := op_configs.any fun op => decide (op.services ≠ [])
  if model_repo && services then
    Except.error "CPOST does not support model_repository and pipeline services at the same time"
  else if model_repo then Except.ok RUN_MODE.MODEL_REPO
  else if services then Except.ok RUN_MODE.PIPELINE_SERVICES
  else Except.ok RUN_MODE.NO_INFERENCE_SERVER

/-! ## start_operator identifier acquisition -/

/-- ASCII whitespace, as stripped by Python `str.strip`. -/
def pyIsSpace (b : Nat) : Bool := b == 9 || b == 10 || b == 11 || b == 12 || b == 13 || b == 32

/-- Python `bytes.decode('utf-8').strip()` on a byte line, keeping bytes. -/
def pyStrip (bs : List Nat) : List Nat :=
  ((bs.dropWhile pyIsSpace).reverse.dropWhile pyIsSpace).reverse

/-- Outcome of the identifier-acquisition loop of `start_operator`. -/
inductive IdOutcome
  | accepted (container_id : List Nat)
  | fatal (raw_id : List Nat)
  | waiting
deriving DecidableEq, Repr

/-- The identifier-acquisition loop of `start_operator`, applied to the
sequence of lines drained from the child's stdout queue while the process
runs: the first drained line decides — exactly 65 bytes (64-character
identifier plus the line terminator) is accepted and stripped into the
container id, any other length is an immediate fatal `sys.exit`; with no
line yet the loop keeps waiting. -/
def acquire_container_id (drained : List (List Nat)) : IdOutcome :=
  match drained with
  | [] => IdOutcome.waiting
  | raw_id :: _ =>
      if raw_id.length = 65 then IdOutcome.accepted (pyStrip raw_id)
      else IdOutcome.fatal raw_id

/-! ## Graph notions used by the verification -/

/-- Multiplicity of an element in a list. -/
def cnt : List α → α → Nat
  | [], _ => 0
  | b :: t, a => (if b = a then 1 else 0) + cnt t a

/-- In-degree of a node in an edge list (edges are (source, target)). -/
def inCnt : List (α × α) → α → Nat
  | [], _ => 0
  | e :: t, a => (if e.2 = a then 1 else 0) + inCnt t a

/-- Multiplicity of the edge (c, a) in an edge list. -/
def edgeCnt : List (α × α) → α → α → Nat
  | [], _, _ => 0
  | e :: t, c, a => (if e.1 = c ∧ e.2 = a then 1 else 0) + edgeCnt t c a

/-- Number of in-edges of a node whose source has already been emitted. -/
def procCnt : List (α × α) → List α → α → Nat
  | [], _, _ => 0
  | e :: t, topo, a => (if e.1 ∈ topo ∧ e.2 = a then 1 else 0) + procCnt t topo a

/-- Targets of a node's out-edges, in edge-list order. -/
def outsOf : List (α × α) → α → List α
  | [], _ => []
  | e :: t, c => (if e.1 = c then [e.2] else []) ++ outsOf t c

/-- Record a key's first occurrence, as a Python dict insertion does. -/
def touch (s : List α) (a : α) : List α := if a ∈ s then s else s ++ [a]

/-- All nodes of an edge list in first-insertion order (per edge, source
before target), matching the key order of `input_deg_graph`. -/
def nodeOrder (E : List (α × α)) : List α :=
  E.foldl (fun s e => touch (touch s e.1) e.2) []

/-- All edge sources in first-insertion order, matching the key order of
`output_graph` right after the graph is built. -/
def srcOrder (E : List (α × α)) : List α :=
  E.foldl (fun s e => touch s e.1) []

/-- Index of the first occurrence of an element (length when absent). -/
def posIn : List α → α → Nat
  | [], _ => 0
  | b :: t, a => if b = a then 0 else posIn t a + 1

/-- Acyclicity of an edge list: some ranking of the nodes strictly
increases along every edge. -/
def Acyclic (E : List (α × α)) : Prop := ∃ r : α → Nat, ∀ e ∈ E, r e.1 < r e.2

/-- The graph built by one `add_input_edge` call per edge, in edge-list
order, where an edge is the (source, target) = (input_node, node) pair. -/
def buildDag (E : List (α × α)) : PipelineDAG α :=
  E.foldl (fun g e => add_input_edge g e.2 e.1) PipelineDAG.empty

/-- The loop invariant of `topological_sort` run on the graph of an edge
list E. -/
structure SortInv (E : List (α × α)) (s : SortState α) : Prop where
  keys_eq : s.indeg.map Prod.fst = nodeOrder E
  indeg_val : ∀ a, alFind s.indeg a = (inCnt E a : Int) - (procCnt E s.topo_order a : Int)
  topo_nodup : s.topo_order.Nodup
  queue_nodup : s.zero_indegree.Nodup
  queue_topo_disj : ∀ a ∈ s.zero_indegree, a ∉ s.topo_order
  topo_sub : ∀ a ∈ s.topo_order, a ∈ nodeOrder E
  queue_sub : ∀ a ∈ s.zero_indegree, a ∈ nodeOrder E
  ready : ∀ a ∈ nodeOrder E,
      (procCnt E s.topo_order a = inCnt E a ↔ a ∈ s.topo_order ∨ a ∈ s.zero_indegree)
  ordered : ∀ e ∈ E, e.2 ∈ s.topo_order →
      e.1 ∈ s.topo_order ∧ posIn s.topo_order e.1 < posIn s.topo_order e.2
  outg_keys_nodup : (s.outg.map Prod.fst).Nodup
  outg_keys_mem : ∀ a, a ∈ s.outg.map Prod.fst ↔ a ∈ srcOrder E ∨ a ∈ s.topo_order
  outg_val : ∀ a, outFind s.outg a = outsOf E a
  visited_eq : s.visited_count = s.topo_order.length


/-! ## Concrete operators used in examples -/

/-- An input binding with no `from` key (payload input). -/
def inputPayload : InputBinding := ⟨none, none, "/input"⟩

/-- An input binding taking its data from the named operator's output. -/
def inputFrom (nm : String) : InputBinding := ⟨some nm, none, "/input"⟩

/-- A minimal operator with the given name and upstream dependencies. -/
def simpleOp (nm : String) (froms : List String) : OperatorConfig :=
  ⟨nm, "tag", [], [], if froms = [] then [inputPayload] else froms.map inputFrom, [], [], []⟩

/-- The previous raw sample of the worked numeric example. -/
def exampleRawPrev : RawMetrics := ⟨2, 800000, [], 14000000, 6500000⟩

/-- The current raw sample of the worked numeric example. -/
def exampleRawCur : RawMetrics := ⟨3, 1000000, [], 14000000.60, 8500000⟩

/-! # Association-list lemmas -/

theorem touch_of_mem (s : List α) (a : α) (h : a ∈ s) : touch s a = s := if_pos h

theorem touch_of_not_mem (s : List α) (a : α) (h : a ∉ s) : touch s a = s ++ [a] := if_neg h

theorem mem_cons_iff_of_ne (s : List α) (k a : α) (hka : ¬ k = a) :
    a ∈ k :: s ↔ a ∈ s := by
  constructor
  · intro h
    rcases List.mem_cons.mp h with h | h
    · exact absurd h.symm hka
    · exact h
  · intro h
    exact List.mem_cons_of_mem _ h

theorem touch_cons (k : α) (s : List α) (a : α) (hka : ¬ k = a) :
    touch (k :: s) a = k :: touch s a := by
  by_cases hm : a ∈ s
  · rw [touch_of_mem _ _ ((mem_cons_iff_of_ne s k a hka).mpr hm), touch_of_mem _ _ hm]
  · rw [touch_of_not_mem _ _ (fun h => hm ((mem_cons_iff_of_ne s k a hka).mp h)),
      touch_of_not_mem _ _ hm]
    rfl

theorem mem_touch (s : List α) (a b : α) : b ∈ touch s a ↔ b ∈ s ∨ b = a := by
  by_cases h : a ∈ s
  · rw [touch_of_mem _ _ h]
    constructor
    · exact Or.inl
    · intro hb
      rcases hb with hb | hb
      · exact hb
      · exact hb ▸ h
  · rw [touch_of_not_mem _ _ h]
    simp [List.mem_append]

theorem nodup_touch (s : List α) (a : α) (hs : s.Nodup) : (touch s a).Nodup := by
  by_cases h : a ∈ s
  · rw [touch_of_mem _ _ h]; exact hs
  · rw [touch_of_not_mem _ _ h]
    simp [List.nodup_append, hs, h]

theorem alFind_bump (l : List (α × Int)) (a b : α) (d : Int) :
    alFind (bump l a d) b = alFind l b + (if a = b then d else 0) := by
  induction l with
  | nil =>
      by_cases h : a = b <;> simp [bump, alFind, h]
  | cons p t ih =>
      obtain ⟨k, v⟩ := p
      by_cases hka : k = a
      · by_cases hkb : k = b
        · have hab : a = b := hka.symm.trans hkb
          simp [bump, alFind, hka, hkb, hab]
        · have hab : ¬ a = b := fun h => hkb (hka.trans h)
          simp [bump, alFind, hka, hkb, hab]
      · by_cases hkb : k = b
        · have hab : ¬ a = b := fun h => hka (hkb.trans h.symm)
          have hba : ¬ b = a := fun h => hab h.symm
          simp [bump, alFind, hka, hkb, hab, hba]
        · simp [bump, alFind, hka, hkb, ih]

theorem keys_bump (l : List (α × Int)) (a : α) (d : Int) :
    (bump l a d).map Prod.fst = touch (l.map Prod.fst) a := by
  induction l with
  | nil => simp [bump, touch]
  | cons p t ih =>
      obtain ⟨k, v⟩ := p
      by_cases hka : k = a
      · have hm : a ∈ k :: t.map Prod.fst := by
          rw [hka]; exact List.mem_cons_self a _
        have h1 : bump ((k, v) :: t) a d = (k, v + d) :: t := by
          simp [bump, hka]
        rw [h1]
        simp only [List.map_cons]
        rw [touch_of_mem _ _ hm]
      · have h1 : bump ((k, v) :: t) a d = (k, v) :: bump t a d := by
          simp [bump, hka]
        rw [h1, List.map_cons, List.map_cons, ih, touch_cons k _ a hka]

theorem sumPos_bump_dec (l : List (α × Int)) (a : α) :
    sumPos (bump l a (-1)) + (alFind l a).toNat = sumPos l + (alFind l a - 1).toNat := by
  induction l with
  | nil => simp [bump, alFind, sumPos]
  | cons p t ih =>
      obtain ⟨k, v⟩ := p
      by_cases hka : k = a
      · subst hka
        simp only [bump, alFind, if_pos rfl, sumPos, if_true]
        omega
      · simp only [bump, alFind, if_neg hka, sumPos]
        omega

theorem outFind_pushOut (l : List (α × List α)) (a b v : α) :
    outFind (pushOut l a v) b = outFind l b ++ (if a = b then [v] else []) := by
  induction l with
  | nil => by_cases h : a = b <;> simp [pushOut, outFind, h]
  | cons p t ih =>
      obtain ⟨k, vs⟩ := p
      by_cases hka : k = a
      · by_cases hkb : k = b
        · have hab : a = b := hka.symm.trans hkb
          simp [pushOut, outFind, hka, hkb, hab]
        · have hab : ¬ a = b := fun h => hkb (hka.trans h)
          simp [pushOut, outFind, hka, hkb, hab]
      · by_cases hkb : k = b
        · have hab : ¬ a = b := fun h => hka (hkb.trans h.symm)
          have hba : ¬ b = a := fun h => hab h.symm
          simp [pushOut, outFind, hka, hkb, hab, hba]
        · simp [pushOut, outFind, hka, hkb, ih]

theorem keys_pushOut (l : List (α × List α)) (a v : α) :
    (pushOut l a v).map Prod.fst = touch (l.map Prod.fst) a := by
  induction l with
  | nil => simp [pushOut, touch]
  | cons p t ih =>
      obtain ⟨k, vs⟩ := p
      by_cases hka : k = a
      · have hm : a ∈ k :: t.map Prod.fst := by
          rw [hka]; exact List.mem_cons_self a _
        have h1 : pushOut ((k, vs) :: t) a v = (k, vs ++ [v]) :: t := by
          simp [pushOut, hka]
        rw [h1]
        simp only [List.map_cons]
        rw [touch_of_mem _ _ hm]
      · have h1 : pushOut ((k, vs) :: t) a v = (k, vs) :: pushOut t a v := by
          simp [pushOut, hka]
        rw [h1, List.map_cons, List.map_cons, ih, touch_cons k _ a hka]

theorem getOut_fst (l : List (α × List α)) (a : α) :
    (getOut l a).1 = outFind l a := by
  induction l with
  | nil => simp [getOut, outFind]
  | cons p t ih =>
      obtain ⟨k, vs⟩ := p
      by_cases hka : k = a <;> simp [getOut, outFind, hka, ih]

theorem getOut_keys (l : List (α × List α)) (a : α) :
    (getOut l a).2.map Prod.fst = touch (l.map Prod.fst) a := by
  induction l with
  | nil => simp [getOut, touch]
  | cons p t ih =>
      obtain ⟨k, vs⟩ := p
      by_cases hka : k = a
      · have hm : a ∈ k :: t.map Prod.fst := by
          rw [hka]; exact List.mem_cons_self a _
        have h1 : (getOut ((k, vs) :: t) a).2 = (k, vs) :: t := by
          simp [getOut, hka]
        rw [h1]
        simp only [List.map_cons]
        rw [touch_of_mem _ _ hm]
      · have h1 : (getOut ((k, vs) :: t) a).2 = (k, vs) :: (getOut t a).2 := by
          simp [getOut, hka]
        rw [h1, List.map_cons, List.map_cons, ih, touch_cons k _ a hka]

theorem getOut_val (l : List (α × List α)) (a b : α) :
    outFind (getOut l a).2 b = outFind l b := by
  induction l with
  | nil =>
      by_cases h : a = b <;> simp [getOut, outFind, h]
  | cons p t ih =>
      obtain ⟨k, vs⟩ := p
      by_cases hka : k = a
      · simp [getOut, outFind, hka]
      · have h1 : (getOut ((k, vs) :: t) a).2 = (k, vs) :: (getOut t a).2 := by
          simp [getOut, hka]
        rw [h1]
        by_cases hkb : k = b <;> simp [outFind, hkb, ih]

theorem posIn_lt_length (l : List α) (a : α) (h : a ∈ l) : posIn l a < l.length := by
  induction l with
  | nil => cases h
  | cons b t ih =>
      by_cases hb : b = a
      · simp [posIn, hb]
      · have : a ∈ t := (mem_cons_iff_of_ne t b a hb).mp h
        simpa [posIn, hb] using ih this

theorem posIn_append_left (l l2 : List α) (a : α) (h : a ∈ l) :
    posIn (l ++ l2) a = posIn l a := by
  induction l with
  | nil => cases h
  | cons b t ih =>
      by_cases hb : b = a
      · simp [posIn, hb]
      · have : a ∈ t := (mem_cons_iff_of_ne t b a hb).mp h
        simp [posIn, hb, ih this]

theorem posIn_append_right (l l2 : List α) (a : α) (h : a ∉ l) :
    posIn (l ++ l2) a = l.length + posIn l2 a := by
  induction l with
  | nil => simp
  | cons b t ih =>
      have hb : ¬ b = a := fun hh => h (by simp [hh])
      have ht : a ∉ t := fun hh => h (by simp [hh])
      simp only [List.cons_append, posIn, if_neg hb, List.length_cons, List.append_eq]
      rw [ih ht]
      omega

/-! # Counting lemmas for the dependency graph -/

theorem cnt_outsOf (E : List (α × α)) (c a : α) :
    cnt (outsOf E c) a = edgeCnt E c a := by
  induction E with
  | nil => rfl
  | cons e t ih =>
      by_cases h1 : e.1 = c
      · by_cases h2 : e.2 = a <;>
          simp [outsOf, edgeCnt, cnt, h1, h2, ih, List.singleton_append]
      · simp [outsOf, edgeCnt, cnt, h1, ih]

theorem mem_iff_cnt_pos (l : List α) (a : α) : a ∈ l ↔ 1 ≤ cnt l a := by
  induction l with
  | nil => simp [cnt]
  | cons b t ih =>
      by_cases hb : b = a
      · simp [cnt, hb]
      · rw [mem_cons_iff_of_ne t b a hb, ih]
        simp [cnt, hb]

theorem edgeCnt_pos_iff (E : List (α × α)) (c a : α) :
    1 ≤ edgeCnt E c a ↔ ∃ e ∈ E, e.1 = c ∧ e.2 = a := by
  induction E with
  | nil => simp [edgeCnt]
  | cons e t ih =>
      by_cases h : e.1 = c ∧ e.2 = a
      · simp [edgeCnt, h]
      · simp only [edgeCnt, if_neg h, Nat.zero_add, ih, List.mem_cons]
        constructor
        · rintro ⟨e', he', hc⟩
          exact ⟨e', Or.inr he', hc⟩
        · rintro ⟨e', he' | he', hc⟩
          · exact absurd (he' ▸ hc) h
          · exact ⟨e', he', hc⟩

theorem inCnt_pos_iff (E : List (α × α)) (a : α) :
    1 ≤ inCnt E a ↔ ∃ e ∈ E, e.2 = a := by
  induction E with
  | nil => simp [inCnt]
  | cons e t ih =>
      by_cases h : e.2 = a
      · simp [inCnt, h]
      · simp only [inCnt, if_neg h, Nat.zero_add, ih, List.mem_cons]
        constructor
        · rintro ⟨e', he', hc⟩
          exact ⟨e', Or.inr he', hc⟩
        · rintro ⟨e', he' | he', hc⟩
          · exact absurd (he' ▸ hc) h
          · exact ⟨e', he', hc⟩

theorem procCnt_nil_topo (E : List (α × α)) (a : α) : procCnt E [] a = 0 := by
  induction E with
  | nil => rfl
  | cons e t ih => simp [procCnt, ih]

theorem procCnt_le_inCnt (E : List (α × α)) (topo : List α) (a : α) :
    procCnt E topo a ≤ inCnt E a := by
  induction E with
  | nil => exact Nat.le_refl _
  | cons e t ih =>
      simp only [procCnt, inCnt]
      have : (if e.1 ∈ topo ∧ e.2 = a then 1 else 0) ≤ (if e.2 = a then 1 else 0) := by
        by_cases h1 : e.1 ∈ topo ∧ e.2 = a
        · simp [h1, h1.2]
        · simp [h1]
      omega

theorem procCnt_concat (E : List (α × α)) (topo : List α) (cur a : α)
    (hc : cur ∉ topo) :
    procCnt E (topo ++ [cur]) a = procCnt E topo a + edgeCnt E cur a := by
  induction E with
  | nil => rfl
  | cons e t ih =>
      simp only [procCnt, edgeCnt, ih]
      by_cases h2 : e.2 = a
      · by_cases ht : e.1 ∈ topo
        · have hcur : ¬ e.1 = cur := fun h => hc (h ▸ ht)
          have hm : e.1 ∈ topo ++ [cur] := List.mem_append_left _ ht
          simp only [if_pos (And.intro hm h2), if_pos (And.intro ht h2)]
          have : ¬ (e.1 = cur ∧ e.2 = a) := fun h => hcur h.1
          simp only [if_neg this]
          omega
        · by_cases hcur : e.1 = cur
          · have hm : e.1 ∈ topo ++ [cur] := by simp [hcur]
            simp only [if_pos (And.intro hm h2), if_pos (And.intro hcur h2)]
            have : ¬ (e.1 ∈ topo ∧ e.2 = a) := fun h => ht h.1
            simp only [if_neg this]
            omega
          · have hm : e.1 ∉ topo ++ [cur] := by
              simp [List.mem_append, ht, hcur]
            have hA : ¬ (e.1 ∈ topo ++ [cur] ∧ e.2 = a) := fun h => hm h.1
            have hB : ¬ (e.1 ∈ topo ∧ e.2 = a) := fun h => ht h.1
            have hC : ¬ (e.1 = cur ∧ e.2 = a) := fun h => hcur h.1
            simp only [if_neg hA, if_neg hB, if_neg hC]
            omega
      · have hA : ¬ (e.1 ∈ topo ++ [cur] ∧ e.2 = a) := fun h => h2 h.2
        have hB : ¬ (e.1 ∈ topo ∧ e.2 = a) := fun h => h2 h.2
        have hC : ¬ (e.1 = cur ∧ e.2 = a) := fun h => h2 h.2
        simp only [if_neg hA, if_neg hB, if_neg hC]
        omega

theorem procCnt_add_edge_le (E : List (α × α)) (topo : List α) (cur a : α)
    (hc : cur ∉ topo) :
    procCnt E topo a + edgeCnt E cur a ≤ inCnt E a := by
  have h := procCnt_le_inCnt E (topo ++ [cur]) a
  rwa [procCnt_concat E topo cur a hc] at h

theorem srcs_mem_of_procCnt_eq (E : List (α × α)) (topo : List α) (a : α)
    (h : procCnt E topo a = inCnt E a) :
    ∀ e ∈ E, e.2 = a → e.1 ∈ topo := by
  induction E with
  | nil => intro e he; cases he
  | cons e t ih =>
      intro e' he' h2
      have hple : procCnt t topo a ≤ inCnt t a := procCnt_le_inCnt t topo a
      rcases List.mem_cons.mp he' with rfl | hmem
      · by_cases ht : e'.1 ∈ topo
        · exact ht
        · exfalso
          have h1 : ¬ (e'.1 ∈ topo ∧ e'.2 = a) := fun hx => ht hx.1
          simp only [procCnt, inCnt, if_neg h1, if_pos h2] at h
          omega
      · have hhead : (if e.1 ∈ topo ∧ e.2 = a then 1 else 0) ≤ (if e.2 = a then 1 else 0) := by
          by_cases h1 : e.1 ∈ topo ∧ e.2 = a
          · simp [h1, h1.2]
          · simp [h1]
        simp only [procCnt, inCnt] at h
        exact ih (by omega) e' hmem h2

theorem procCnt_eq_of_srcs (E : List (α × α)) (topo : List α) (a : α)
    (h : ∀ e ∈ E, e.2 = a → e.1 ∈ topo) :
    procCnt E topo a = inCnt E a := by
  induction E with
  | nil => rfl
  | cons e t ih =>
      have htail : procCnt t topo a = inCnt t a :=
        ih fun e' he' h2 => h e' (List.mem_cons_of_mem _ he') h2
      simp only [procCnt, inCnt, htail]
      by_cases h2 : e.2 = a
      · have h1 : e.1 ∈ topo := h e (List.mem_cons_self _ _) h2
        simp [h1, h2]
      · have hA : ¬ (e.1 ∈ topo ∧ e.2 = a) := fun hx => h2 hx.2
        simp [hA, h2]

/-! # Node-order lemmas -/

theorem foldl_touch2_mem (E : List (α × α)) (s : List α) (a : α) :
    a ∈ E.foldl (fun s e => touch (touch s e.1) e.2) s ↔
      a ∈ s ∨ ∃ e ∈ E, e.1 = a ∨ e.2 = a := by
  induction E generalizing s with
  | nil => simp
  | cons e t ih =>
      rw [List.foldl_cons, ih]
      simp only [mem_touch, List.mem_cons]
      constructor
      · rintro (((hs | h1) | h2) | ⟨e', he', hc⟩)
        · exact Or.inl hs
        · exact Or.inr ⟨e, Or.inl rfl, Or.inl h1.symm⟩
        · exact Or.inr ⟨e, Or.inl rfl, Or.inr h2.symm⟩
        · exact Or.inr ⟨e', Or.inr he', hc⟩
      · rintro (hs | ⟨e', he' | he', hc⟩)
        · exact Or.inl (Or.inl (Or.inl hs))
        · rcases hc with hc | hc
          · exact Or.inl (Or.inl (Or.inr (he' ▸ hc.symm)))
          · exact Or.inl (Or.inr (he' ▸ hc.symm))
        · exact Or.inr ⟨e', he', hc⟩

theorem foldl_touch2_nodup (E : List (α × α)) (s : List α) (hs : s.Nodup) :
    (E.foldl (fun s e => touch (touch s e.1) e.2) s).Nodup := by
  induction E generalizing s with
  | nil => exact hs
  | cons e t ih =>
      rw [List.foldl_cons]
      exact ih _ (nodup_touch _ _ (nodup_touch _ _ hs))

theorem foldl_touch1_mem (E : List (α × α)) (s : List α) (a : α) :
    a ∈ E.foldl (fun s e => touch s e.1) s ↔ a ∈ s ∨ ∃ e ∈ E, e.1 = a := by
  induction E generalizing s with
  | nil => simp
  | cons e t ih =>
      rw [List.foldl_cons, ih]
      simp only [mem_touch, List.mem_cons]
      constructor
      · rintro ((hs | h1) | ⟨e', he', hc⟩)
        · exact Or.inl hs
        · exact Or.inr ⟨e, Or.inl rfl, h1.symm⟩
        · exact Or.inr ⟨e', Or.inr he', hc⟩
      · rintro (hs | ⟨e', he' | he', hc⟩)
        · exact Or.inl (Or.inl hs)
        · exact Or.inl (Or.inr (he' ▸ hc.symm))
        · exact Or.inr ⟨e', he', hc⟩

theorem foldl_touch1_nodup (E : List (α × α)) (s : List α) (hs : s.Nodup) :
    (E.foldl (fun s e => touch s e.1) s).Nodup := by
  induction E generalizing s with
  | nil => exact hs
  | cons e t ih =>
      rw [List.foldl_cons]
      exact ih _ (nodup_touch _ _ hs)

theorem mem_nodeOrder_iff (E : List (α × α)) (a : α) :
    a ∈ nodeOrder E ↔ ∃ e ∈ E, e.1 = a ∨ e.2 = a := by
  rw [nodeOrder, foldl_touch2_mem]
  simp

theorem nodeOrder_nodup (E : List (α × α)) : (nodeOrder E).Nodup :=
  foldl_touch2_nodup E [] List.nodup_nil

theorem mem_srcOrder_iff (E : List (α × α)) (a : α) :
    a ∈ srcOrder E ↔ ∃ e ∈ E, e.1 = a := by
  rw [srcOrder, foldl_touch1_mem]
  simp

theorem srcOrder_nodup (E : List (α × α)) : (srcOrder E).Nodup :=
  foldl_touch1_nodup E [] List.nodup_nil

theorem srcOrder_sub_nodeOrder (E : List (α × α)) (a : α) (h : a ∈ srcOrder E) :
    a ∈ nodeOrder E := by
  rw [mem_srcOrder_iff] at h
  rw [mem_nodeOrder_iff]
  rcases h with ⟨e, he, hc⟩
  exact ⟨e, he, Or.inl hc⟩

theorem edge_fst_mem_nodeOrder (E : List (α × α)) (e : α × α) (he : e ∈ E) :
    e.1 ∈ nodeOrder E := by
  rw [mem_nodeOrder_iff]
  exact ⟨e, he, Or.inl rfl⟩

theorem edge_snd_mem_nodeOrder (E : List (α × α)) (e : α × α) (he : e ∈ E) :
    e.2 ∈ nodeOrder E := by
  rw [mem_nodeOrder_iff]
  exact ⟨e, he, Or.inr rfl⟩

/-! # Characterization of the built graph -/

theorem build_indeg_keys (E : List (α × α)) (g : PipelineDAG α) :
    ((E.foldl (fun g e => add_input_edge g e.2 e.1) g).input_deg_graph).map Prod.fst =
      E.foldl (fun s e => touch (touch s e.1) e.2) (g.input_deg_graph.map Prod.fst) := by
  induction E generalizing g with
  | nil => rfl
  | cons e t ih =>
      rw [List.foldl_cons, List.foldl_cons, ih]
      have h1 : ((add_input_edge g e.2 e.1).input_deg_graph).map Prod.fst =
          touch (touch (g.input_deg_graph.map Prod.fst) e.1) e.2 := by
        simp [add_input_edge, keys_bump]
      rw [h1]

theorem build_alFind (E : List (α × α)) (g : PipelineDAG α) (a : α) :
    alFind ((E.foldl (fun g e => add_input_edge g e.2 e.1) g).input_deg_graph) a =
      alFind g.input_deg_graph a + (inCnt E a : Int) := by
  induction E generalizing g with
  | nil => simp [inCnt]
  | cons e t ih =>
      rw [List.foldl_cons, ih]
      have h1 : alFind ((add_input_edge g e.2 e.1).input_deg_graph) a =
          alFind g.input_deg_graph a + (if e.2 = a then 1 else 0) := by
        simp only [add_input_edge, alFind_bump]
        by_cases h1 : e.1 = a <;> by_cases h2 : e.2 = a <;> simp [h1, h2]
      rw [h1]
      simp only [inCnt]
      by_cases h2 : e.2 = a <;> simp [h2] <;> push_cast <;> ring

theorem build_outFind (E : List (α × α)) (g : PipelineDAG α) (a : α) :
    outFind ((E.foldl (fun g e => add_input_edge g e.2 e.1) g).output_graph) a =
      outFind g.output_graph a ++ outsOf E a := by
  induction E generalizing g with
  | nil => simp [outsOf]
  | cons e t ih =>
      rw [List.foldl_cons, ih]
      have h1 : outFind ((add_input_edge g e.2 e.1).output_graph) a =
          outFind g.output_graph a ++ (if e.1 = a then [e.2] else []) := by
        simp only [add_input_edge, outFind_pushOut]
      rw [h1, List.append_assoc]
      rfl

theorem build_outg_keys (E : List (α × α)) (g : PipelineDAG α) :
    ((E.foldl (fun g e => add_input_edge g e.2 e.1) g).output_graph).map Prod.fst =
      E.foldl (fun s e => touch s e.1) (g.output_graph.map Prod.fst) := by
  induction E generalizing g with
  | nil => rfl
  | cons e t ih =>
      rw [List.foldl_cons, List.foldl_cons, ih]
      have h1 : ((add_input_edge g e.2 e.1).output_graph).map Prod.fst =
          touch (g.output_graph.map Prod.fst) e.1 := by
        simp [add_input_edge, keys_pushOut]
      rw [h1]

theorem buildDag_indeg_keys (E : List (α × α)) :
    (buildDag E).input_deg_graph.map Prod.fst = nodeOrder E :=
  build_indeg_keys E PipelineDAG.empty

theorem buildDag_alFind (E : List (α × α)) (a : α) :
    alFind (buildDag E).input_deg_graph a = (inCnt E a : Int) := by
  have h := build_alFind E PipelineDAG.empty a
  simpa [PipelineDAG.empty, alFind] using h

theorem buildDag_outFind (E : List (α × α)) (a : α) :
    outFind (buildDag E).output_graph a = outsOf E a := by
  have h := build_outFind E PipelineDAG.empty a
  simpa [PipelineDAG.empty, outFind] using h

theorem buildDag_outg_keys (E : List (α × α)) :
    (buildDag E).output_graph.map Prod.fst = srcOrder E :=
  build_outg_keys E PipelineDAG.empty

theorem registeredDag_eq_buildDag (ps : List (α × α)) :
    registeredDag ps = buildDag (ps.map fun p => (p.2, p.1)) := by
  rw [registeredDag, buildDag, List.foldl_map]

/-! # Behaviour of the inner loop (processTargets) -/

theorem processTargets_alFind (outs : List α) (indeg : List (α × Int)) (queue : List α)
    (b : α) :
    alFind (processTargets indeg queue outs).1 b = alFind indeg b - (cnt outs b : Int) := by
  induction outs generalizing indeg queue with
  | nil => simp [processTargets, cnt]
  | cons i rest ih =>
      simp only [processTargets]
      rw [ih, alFind_bump]
      simp only [cnt]
      by_cases hib : i = b <;> simp [hib] <;> push_cast <;> ring

theorem processTargets_keys (outs : List α) (indeg : List (α × Int)) (queue : List α)
    (h : ∀ i ∈ outs, i ∈ indeg.map Prod.fst) :
    (processTargets indeg queue outs).1.map Prod.fst = indeg.map Prod.fst := by
  induction outs generalizing indeg queue with
  | nil => simp [processTargets]
  | cons i rest ih =>
      have hkeys : (bump indeg i (-1)).map Prod.fst = indeg.map Prod.fst := by
        rw [keys_bump, touch_of_mem _ _ (h i (List.mem_cons_self _ _))]
      simp only [processTargets]
      rw [ih _ _ fun j hj => by
        rw [hkeys]; exact h j (List.mem_cons_of_mem _ hj)]
      exact hkeys

theorem processTargets_queue (outs : List α) (indeg : List (α × Int)) (queue : List α)
    (hno : ∀ b, (cnt outs b : Int) ≤ alFind indeg b) :
    ∃ pushes, (processTargets indeg queue outs).2 = queue ++ pushes ∧ pushes.Nodup ∧
      ∀ b, (b ∈ pushes ↔ 1 ≤ cnt outs b ∧ alFind indeg b = (cnt outs b : Int)) := by
  induction outs generalizing indeg queue with
  | nil =>
      refine ⟨[], by simp [processTargets], List.nodup_nil, ?_⟩
      intro b
      simp [cnt]
  | cons i rest ih =>
      have hbump : ∀ b, alFind (bump indeg i (-1)) b =
          alFind indeg b + (if i = b then (-1 : Int) else 0) := fun b => alFind_bump indeg i b (-1)
      have hno1 : ∀ b, (cnt rest b : Int) ≤ alFind (bump indeg i (-1)) b := by
        intro b
        rw [hbump b]
        have hb := hno b
        simp only [cnt] at hb
        by_cases hib : i = b
        · simp only [if_pos hib] at hb ⊢
          push_cast at hb ⊢
          omega
        · simp only [if_neg hib] at hb ⊢
          push_cast at hb ⊢
          omega
      by_cases hz : alFind (bump indeg i (-1)) i = 0
      · obtain ⟨pushes, hq, hnd, hmem⟩ := ih (bump indeg i (-1)) (queue ++ [i]) hno1
        have hb1 : alFind (bump indeg i (-1)) i = alFind indeg i - 1 := by
          have hh := hbump i
          simp at hh
          omega
        have hvi : alFind indeg i = 1 := by omega
        have hcri : cnt rest i = 0 := by
          have hh := hno1 i
          rw [hz] at hh
          omega
        refine ⟨i :: pushes, ?_, ?_, ?_⟩
        · simp only [processTargets, if_pos hz]
          rw [hq, List.append_assoc]
          rfl
        · refine List.Nodup.cons (fun hc => ?_) hnd
          have := (hmem i).mp hc
          omega
        · intro b
          by_cases hib : i = b
          · subst hib
            have hcc : cnt (i :: rest) i = 1 + cnt rest i := by simp [cnt]
            simp only [List.mem_cons, true_or, true_iff, hcc, hcri, hvi]
            refine ⟨by omega, by simp⟩
          · have hcc : cnt (i :: rest) b = cnt rest b := by simp [cnt, hib]
            have h1 : (b ∈ i :: pushes) ↔ b ∈ pushes :=
              mem_cons_iff_of_ne pushes i b hib
            rw [h1, hmem b, hbump b, if_neg hib, hcc]
            constructor
            · rintro ⟨hp, he⟩
              exact ⟨hp, by omega⟩
            · rintro ⟨hp, he⟩
              exact ⟨hp, by omega⟩
      · obtain ⟨pushes, hq, hnd, hmem⟩ := ih (bump indeg i (-1)) queue hno1
        refine ⟨pushes, ?_, hnd, ?_⟩
        · simp only [processTargets, if_neg hz]
          exact hq
        · intro b
          by_cases hib : i = b
          · subst hib
            have hcc : cnt (i :: rest) i = 1 + cnt rest i := by simp [cnt]
            have hb1 : alFind (bump indeg i (-1)) i = alFind indeg i - 1 := by
              have hh := hbump i
              simp at hh
              omega
            rw [hmem i, hcc, hb1]
            have hz2 : ¬ (alFind indeg i - 1 = 0) := by rw [← hb1]; exact hz
            constructor
            · rintro ⟨hp, he⟩
              refine ⟨by omega, ?_⟩
              push_cast
              omega
            · rintro ⟨hp, he⟩
              push_cast at he
              refine ⟨by omega, by omega⟩
          · have hcc : cnt (i :: rest) b = cnt rest b := by simp [cnt, hib]
            rw [hmem b, hbump b, if_neg hib, hcc]
            constructor
            · rintro ⟨hp, he⟩
              exact ⟨hp, by omega⟩
            · rintro ⟨hp, he⟩
              exact ⟨hp, by omega⟩

theorem processTargets_measure (outs : List α) (indeg : List (α × Int)) (queue : List α) :
    (processTargets indeg queue outs).2.length + sumPos (processTargets indeg queue outs).1 ≤
      queue.length + sumPos indeg := by
  induction outs generalizing indeg queue with
  | nil => simp [processTargets]
  | cons i rest ih =>
      have key := sumPos_bump_dec indeg i
      by_cases hz : alFind (bump indeg i (-1)) i = 0
      · have hvi : alFind indeg i = 1 := by
          have hb1 := alFind_bump indeg i i (-1)
          simp at hb1
          omega
        simp only [processTargets, if_pos hz]
        have hstep := ih (bump indeg i (-1)) (queue ++ [i])
        rw [hvi] at key
        simp only [List.length_append, List.length_cons, List.length_nil] at hstep ⊢
        omega
      · simp only [processTargets, if_neg hz]
        have hstep := ih (bump indeg i (-1)) queue
        have hmono : sumPos (bump indeg i (-1)) ≤ sumPos indeg := by omega
        omega

theorem stepState_fuel (s : SortState α) (cur : α) (rest : List α)
    (h : s.zero_indegree = cur :: rest) :
    sortFuel (stepState s cur rest) < sortFuel s := by
  have hm := processTargets_measure (getOut s.outg cur).1 s.indeg rest
  simp only [sortFuel, stepState, h, List.length_cons]
  omega

theorem sortLoop_queue_nil (fuel : Nat) (s : SortState α) (h : sortFuel s ≤ fuel) :
    (sortLoop fuel s).zero_indegree = [] := by
  induction fuel generalizing s with
  | zero =>
      have hlen : s.zero_indegree.length = 0 := by
        simp only [sortFuel] at h
        omega
      have hnil : s.zero_indegree = [] := List.length_eq_zero.mp hlen
      simpa [sortLoop] using hnil
  | succ n ih =>
      cases hq : s.zero_indegree with
      | nil => simp [sortLoop, hq]
      | cons cur rest =>
          simp only [sortLoop, hq]
          apply ih
          have := stepState_fuel s cur rest hq
          omega

/-! # Invariant preservation -/

theorem stepState_inv (E : List (α × α)) (s : SortState α) (cur : α) (rest : List α)
    (hq : s.zero_indegree = cur :: rest) (inv : SortInv E s) :
    SortInv E (stepState s cur rest) := by
  have hcurq : cur ∈ s.zero_indegree := by rw [hq]; exact List.mem_cons_self _ _
  have hcur_topo : cur ∉ s.topo_order := inv.queue_topo_disj cur hcurq
  have hcur_node : cur ∈ nodeOrder E := inv.queue_sub cur hcurq
  have hcur_ready : procCnt E s.topo_order cur = inCnt E cur :=
    (inv.ready cur hcur_node).mpr (Or.inr hcurq)
  have houts : (getOut s.outg cur).1 = outsOf E cur := by
    rw [getOut_fst, inv.outg_val]
  have hindeg : (stepState s cur rest).indeg =
      (processTargets s.indeg rest (outsOf E cur)).1 := by
    simp only [stepState]
    rw [houts]
  have hqueue : (stepState s cur rest).zero_indegree =
      (processTargets s.indeg rest (outsOf E cur)).2 := by
    simp only [stepState]
    rw [houts]
  have houtg : (stepState s cur rest).outg = (getOut s.outg cur).2 := rfl
  have htopo : (stepState s cur rest).topo_order = s.topo_order ++ [cur] := rfl
  have hvis : (stepState s cur rest).visited_count = s.visited_count + 1 := rfl
  have hno : ∀ b, (cnt (outsOf E cur) b : Int) ≤ alFind s.indeg b := by
    intro b
    rw [inv.indeg_val b, cnt_outsOf]
    have h1 := procCnt_add_edge_le E s.topo_order cur b hcur_topo
    have h2 := procCnt_le_inCnt E s.topo_order b
    omega
  have hedge_self : edgeCnt E cur cur = 0 := by
    have h2 := procCnt_add_edge_le E s.topo_order cur cur hcur_topo
    omega
  have hzero_of_ready : ∀ b, procCnt E s.topo_order b = inCnt E b → edgeCnt E cur b = 0 := by
    intro b hb
    have h2 := procCnt_add_edge_le E s.topo_order cur b hcur_topo
    omega
  have hproc : ∀ b, procCnt E (s.topo_order ++ [cur]) b
      = procCnt E s.topo_order b + edgeCnt E cur b :=
    fun b => procCnt_concat E s.topo_order cur b hcur_topo
  obtain ⟨pushes, hq2, hnd, hmem⟩ := processTargets_queue (outsOf E cur) s.indeg rest hno
  have hpush_iff : ∀ b, b ∈ pushes ↔
      1 ≤ edgeCnt E cur b ∧ procCnt E (s.topo_order ++ [cur]) b = inCnt E b := by
    intro b
    rw [hmem b, inv.indeg_val b, cnt_outsOf, hproc b]
    have hle := procCnt_le_inCnt E s.topo_order b
    constructor
    · rintro ⟨h1, h2⟩
      exact ⟨h1, by omega⟩
    · rintro ⟨h1, h2⟩
      exact ⟨h1, by omega⟩
  have hpush_not_topo : ∀ b ∈ pushes, b ∉ s.topo_order := by
    intro b hb hbt
    obtain ⟨h1, h2⟩ := (hpush_iff b).mp hb
    have h3 : procCnt E s.topo_order b = inCnt E b :=
      (inv.ready b (inv.topo_sub b hbt)).mpr (Or.inl hbt)
    have h4 := hzero_of_ready b h3
    omega
  have hpush_ne_cur : ∀ b ∈ pushes, ¬ b = cur := by
    intro b hb hbc
    subst hbc
    obtain ⟨h1, _⟩ := (hpush_iff b).mp hb
    omega
  have hpush_not_rest : ∀ b ∈ pushes, b ∉ rest := by
    intro b hb hbr
    obtain ⟨h1, h2⟩ := (hpush_iff b).mp hb
    have hbq : b ∈ s.zero_indegree := by rw [hq]; exact List.mem_cons_of_mem _ hbr
    have h3 : procCnt E s.topo_order b = inCnt E b :=
      (inv.ready b (inv.queue_sub b hbq)).mpr (Or.inr hbq)
    have h4 := hzero_of_ready b h3
    omega
  have hpush_node : ∀ b ∈ pushes, b ∈ nodeOrder E := by
    intro b hb
    obtain ⟨h1, _⟩ := (hpush_iff b).mp hb
    obtain ⟨e, he, he1, he2⟩ := (edgeCnt_pos_iff E cur b).mp h1
    exact he2 ▸ edge_snd_mem_nodeOrder E e he
  have hrest_nodup : rest.Nodup ∧ cur ∉ rest := by
    have hh := inv.queue_nodup
    rw [hq, List.nodup_cons] at hh
    exact ⟨hh.2, hh.1⟩
  have houts_keys : ∀ i ∈ outsOf E cur, i ∈ s.indeg.map Prod.fst := by
    intro i hi
    rw [inv.keys_eq]
    have h1 : 1 ≤ cnt (outsOf E cur) i := (mem_iff_cnt_pos _ _).mp hi
    rw [cnt_outsOf] at h1
    obtain ⟨e, he, he1, he2⟩ := (edgeCnt_pos_iff E cur i).mp h1
    exact he2 ▸ edge_snd_mem_nodeOrder E e he
  refine SortInv.mk ?_ ?_ ?_ ?_ ?_ ?_ ?_ ?_ ?_ ?_ ?_ ?_ ?_
  · rw [hindeg, processTargets_keys _ _ _ houts_keys, inv.keys_eq]
  · intro b
    rw [hindeg, processTargets_alFind, inv.indeg_val b, cnt_outsOf, htopo, hproc b]
    push_cast
    ring
  · rw [htopo, List.nodup_append]
    refine ⟨inv.topo_nodup, List.nodup_singleton _, fun x hx hx2 => ?_⟩
    have hxc : x = cur := by simpa using hx2
    exact hcur_topo (hxc ▸ hx)
  · rw [hqueue, hq2, List.nodup_append]
    exact ⟨hrest_nodup.1, hnd, fun x hx hx2 => hpush_not_rest x hx2 hx⟩
  · intro b hb
    rw [hqueue, hq2] at hb
    rw [htopo]
    rcases List.mem_append.mp hb with hbr | hbp
    · intro hbt
      rcases List.mem_append.mp hbt with h1 | h1
      · have hbq : b ∈ s.zero_indegree := by rw [hq]; exact List.mem_cons_of_mem _ hbr
        exact inv.queue_topo_disj b hbq h1
      · have hbc : b = cur := by simpa using h1
        exact hrest_nodup.2 (hbc ▸ hbr)
    · intro hbt
      rcases List.mem_append.mp hbt with h1 | h1
      · exact hpush_not_topo b hbp h1
      · have hbc : b = cur := by simpa using h1
        exact hpush_ne_cur b hbp hbc
  · intro b hb
    rw [htopo] at hb
    rcases List.mem_append.mp hb with h1 | h1
    · exact inv.topo_sub b h1
    · have hbc : b = cur := by simpa using h1
      exact hbc ▸ hcur_node
  · intro b hb
    rw [hqueue, hq2] at hb
    rcases List.mem_append.mp hb with h1 | h1
    · exact inv.queue_sub b (by rw [hq]; exact List.mem_cons_of_mem _ h1)
    · exact hpush_node b h1
  · intro b hbn
    rw [htopo, hqueue, hq2, hproc b]
    constructor
    · intro hbeq
      by_cases hec : 1 ≤ edgeCnt E cur b
      · right
        refine List.mem_append_right _ ((hpush_iff b).mpr ⟨hec, ?_⟩)
        rw [hproc b]
        exact hbeq
      · have hbeq2 : procCnt E s.topo_order b = inCnt E b := by omega
        rcases (inv.ready b hbn).mp hbeq2 with h1 | h1
        · exact Or.inl (List.mem_append_left _ h1)
        · rw [hq] at h1
          rcases List.mem_cons.mp h1 with h2 | h2
          · left
            rw [h2]
            exact List.mem_append_right _ (by simp)
          · exact Or.inr (List.mem_append_left _ h2)
    · intro hbm
      rcases hbm with h1 | h1
      · rcases List.mem_append.mp h1 with h2 | h2
        · have hbeq : procCnt E s.topo_order b = inCnt E b :=
            (inv.ready b hbn).mpr (Or.inl h2)
          have he0 := hzero_of_ready b hbeq
          omega
        · have hbc : b = cur := by simpa using h2
          subst hbc
          have he0 := hzero_of_ready b hcur_ready
          omega
      · rcases List.mem_append.mp h1 with h2 | h2
        · have hbq : b ∈ s.zero_indegree := by rw [hq]; exact List.mem_cons_of_mem _ h2
          have hbeq : procCnt E s.topo_order b = inCnt E b :=
            (inv.ready b hbn).mpr (Or.inr hbq)
          have he0 := hzero_of_ready b hbeq
          omega
        · obtain ⟨hec, heq⟩ := (hpush_iff b).mp h2
          rw [hproc b] at heq
          omega
  · intro e he het
    rw [htopo] at het ⊢
    rcases List.mem_append.mp het with h1 | h1
    · obtain ⟨ha, hlt⟩ := inv.ordered e he h1
      refine ⟨List.mem_append_left _ ha, ?_⟩
      rw [posIn_append_left _ _ _ ha, posIn_append_left _ _ _ h1]
      exact hlt
    · have hec : e.2 = cur := by simpa using h1
      have hsrc : e.1 ∈ s.topo_order :=
        srcs_mem_of_procCnt_eq E s.topo_order cur hcur_ready e he hec
      refine ⟨List.mem_append_left _ hsrc, ?_⟩
      rw [posIn_append_left _ _ _ hsrc, hec, posIn_append_right _ _ _ hcur_topo]
      have hlt := posIn_lt_length s.topo_order e.1 hsrc
      simp only [posIn, if_pos rfl]
      omega
  · rw [houtg, getOut_keys]
    exact nodup_touch _ _ inv.outg_keys_nodup
  · intro b
    rw [houtg, getOut_keys, mem_touch, inv.outg_keys_mem b, htopo]
    constructor
    · rintro ((h1 | h1) | h1)
      · exact Or.inl h1
      · exact Or.inr (List.mem_append_left _ h1)
      · exact Or.inr (List.mem_append_right _ (by simp [h1]))
    · rintro (h1 | h1)
      · exact Or.inl (Or.inl h1)
      · rcases List.mem_append.mp h1 with h2 | h2
        · exact Or.inl (Or.inr h2)
        · exact Or.inr (by simpa using h2)
  · intro b
    rw [houtg, getOut_val]
    exact inv.outg_val b
  · rw [hvis, htopo, inv.visited_eq]
    simp

theorem sortLoop_inv (E : List (α × α)) (fuel : Nat) (s : SortState α)
    (inv : SortInv E s) : SortInv E (sortLoop fuel s) := by
  induction fuel generalizing s with
  | zero => exact inv
  | succ n ih =>
      cases hq : s.zero_indegree with
      | nil => simpa [sortLoop, hq] using inv
      | cons cur rest =>
          simp only [sortLoop, hq]
          exact ih _ (stepState_inv E s cur rest hq inv)

/-! # The initial state satisfies the invariant -/

theorem mem_filter_zero_keys (l : List (α × Int)) (b : α) :
    b ∈ (l.filter fun p => decide (p.2 = 0)).map Prod.fst ↔ (b, 0) ∈ l := by
  simp only [List.mem_map, List.mem_filter, decide_eq_true_eq]
  constructor
  · rintro ⟨⟨p1, p2⟩, ⟨hp, h0⟩, hb⟩
    simp only at h0 hb
    subst h0
    subst hb
    exact hp
  · intro h
    exact ⟨(b, 0), ⟨h, rfl⟩, rfl⟩

theorem alFind_of_mem_keys_nodup (l : List (α × Int)) (b : α) (v : Int)
    (hnd : (l.map Prod.fst).Nodup) (h : (b, v) ∈ l) : alFind l b = v := by
  induction l with
  | nil => cases h
  | cons p t ih =>
      obtain ⟨k, w⟩ := p
      rw [List.map_cons, List.nodup_cons] at hnd
      rcases List.mem_cons.mp h with h1 | h1
      · have hbv : b = k ∧ v = w := by
          simpa [Prod.ext_iff] using h1
        simp [alFind, hbv.1, hbv.2]
      · by_cases hkb : k = b
        · exfalso
          apply hnd.1
          rw [hkb]
          exact List.mem_map.mpr ⟨(b, v), h1, rfl⟩
        · simp only [alFind, if_neg hkb]
          exact ih hnd.2 h1

theorem mem_of_alFind (l : List (α × Int)) (b : α) (h : b ∈ l.map Prod.fst) :
    (b, alFind l b) ∈ l := by
  induction l with
  | nil => cases h
  | cons p t ih =>
      obtain ⟨k, w⟩ := p
      by_cases hkb : k = b
      · subst hkb
        simp [alFind]
      · rw [List.map_cons] at h
        have hb : b ∈ t.map Prod.fst := (mem_cons_iff_of_ne _ k b hkb).mp h
        simp only [alFind, if_neg hkb]
        exact List.mem_cons_of_mem _ (ih hb)

theorem filter_zero_keys_nodup (l : List (α × Int)) (hnd : (l.map Prod.fst).Nodup) :
    ((l.filter fun p => decide (p.2 = 0)).map Prod.fst).Nodup :=
  hnd.sublist ((List.filter_sublist l).map Prod.fst)

theorem initState_inv (E : List (α × α)) : SortInv E (initState (buildDag E)) := by
  have hkeys : (buildDag E).input_deg_graph.map Prod.fst = nodeOrder E :=
    buildDag_indeg_keys E
  have hknd : ((buildDag E).input_deg_graph.map Prod.fst).Nodup := by
    rw [hkeys]; exact nodeOrder_nodup E
  have hval : ∀ a, alFind (buildDag E).input_deg_graph a = (inCnt E a : Int) :=
    buildDag_alFind E
  have hzero_mem : ∀ b, b ∈ (initState (buildDag E)).zero_indegree ↔
      (b ∈ nodeOrder E ∧ inCnt E b = 0) := by
    intro b
    show b ∈ ((buildDag E).input_deg_graph.filter fun p => decide (p.2 = 0)).map Prod.fst ↔ _
    rw [mem_filter_zero_keys]
    constructor
    · intro h
      have hb : b ∈ (buildDag E).input_deg_graph.map Prod.fst :=
        List.mem_map_of_mem Prod.fst h
      have h0 : alFind (buildDag E).input_deg_graph b = 0 :=
        alFind_of_mem_keys_nodup _ b 0 hknd h
      rw [hval b] at h0
      exact ⟨hkeys ▸ hb, by omega⟩
    · rintro ⟨hb, h0⟩
      have hmem : (b, alFind (buildDag E).input_deg_graph b) ∈ (buildDag E).input_deg_graph :=
        mem_of_alFind _ b (by rw [hkeys]; exact hb)
      rw [hval b, h0] at hmem
      exact hmem
  have htopo0 : (initState (buildDag E)).topo_order = ([] : List α) := rfl
  refine SortInv.mk ?_ ?_ ?_ ?_ ?_ ?_ ?_ ?_ ?_ ?_ ?_ ?_ ?_
  · exact hkeys
  · intro a
    show alFind (buildDag E).input_deg_graph a = _
    rw [hval a, htopo0, procCnt_nil_topo]
    omega
  · exact List.nodup_nil
  · exact filter_zero_keys_nodup _ hknd
  · intro a ha
    rw [htopo0]
    exact List.not_mem_nil a
  · intro a ha
    rw [htopo0] at ha
    cases ha
  · intro a ha
    exact ((hzero_mem a).mp ha).1
  · intro a ha
    rw [htopo0, procCnt_nil_topo]
    constructor
    · intro h0
      exact Or.inr ((hzero_mem a).mpr ⟨ha, h0.symm⟩)
    · rintro (h1 | h1)
      · cases h1
      · exact (((hzero_mem a).mp h1).2).symm
  · intro e he het
    rw [htopo0] at het
    cases het
  · show ((buildDag E).output_graph.map Prod.fst).Nodup
    rw [buildDag_outg_keys]
    exact srcOrder_nodup E
  · intro a
    show a ∈ (buildDag E).output_graph.map Prod.fst ↔ _
    rw [buildDag_outg_keys, htopo0]
    simp
  · intro a
    exact buildDag_outFind E a
  · rfl

/-! # The final state: completeness, counts, acyclicity -/

theorem final_topo_complete_of_acyclic (E : List (α × α)) (F : SortState α)
    (hA : Acyclic E) (invF : SortInv E F) (hqe : F.zero_indegree = []) :
    ∀ a ∈ nodeOrder E, a ∈ F.topo_order := by
  obtain ⟨r, hr⟩ := hA
  suffices h : ∀ n a, r a = n → a ∈ nodeOrder E → a ∈ F.topo_order by
    intro a ha
    exact h (r a) a rfl ha
  intro n
  induction n using Nat.strong_induction_on with
  | _ n ih =>
      intro a hra ha
      have hsrcs : ∀ e ∈ E, e.2 = a → e.1 ∈ F.topo_order := by
        intro e he he2
        have hlt : r e.1 < n := by
          rw [← hra, ← he2]
          exact hr e he
        exact ih (r e.1) hlt e.1 rfl (edge_fst_mem_nodeOrder E e he)
      have heq := procCnt_eq_of_srcs E F.topo_order a hsrcs
      rcases (invF.ready a ha).mp heq with h1 | h1
      · exact h1
      · rw [hqe] at h1
        cases h1

theorem final_count_eq (E : List (α × α)) (F : SortState α) (invF : SortInv E F)
    (hall : ∀ a ∈ nodeOrder E, a ∈ F.topo_order) :
    F.visited_count = F.outg.length := by
  have hkeys_mem : ∀ a, a ∈ F.outg.map Prod.fst ↔ a ∈ F.topo_order := by
    intro a
    rw [invF.outg_keys_mem a]
    constructor
    · rintro (h | h)
      · exact hall a (srcOrder_sub_nodeOrder E a h)
      · exact h
    · exact Or.inr
  have hperm : (F.outg.map Prod.fst).Perm F.topo_order :=
    List.perm_of_nodup_nodup_toFinset_eq invF.outg_keys_nodup invF.topo_nodup
      (List.toFinset.ext hkeys_mem)
  have hlen := hperm.length_eq
  rw [List.length_map] at hlen
  rw [invF.visited_eq, ← hlen]

theorem final_topo_perm (E : List (α × α)) (F : SortState α) (invF : SortInv E F)
    (hall : ∀ a ∈ nodeOrder E, a ∈ F.topo_order) :
    F.topo_order.Perm (nodeOrder E) :=
  List.perm_of_nodup_nodup_toFinset_eq invF.topo_nodup (nodeOrder_nodup E)
    (List.toFinset.ext fun a => ⟨fun h => invF.topo_sub a h, fun h => hall a h⟩)

theorem final_complete_of_count (E : List (α × α)) (F : SortState α) (invF : SortInv E F)
    (hqe : F.zero_indegree = []) (hcount : F.visited_count = F.outg.length) :
    ∀ a ∈ nodeOrder E, a ∈ F.topo_order := by
  have hsub : F.topo_order ⊆ F.outg.map Prod.fst := by
    intro a ha
    exact (invF.outg_keys_mem a).mpr (Or.inr ha)
  have hsubperm := invF.topo_nodup.subperm hsub
  have hlen : (F.outg.map Prod.fst).length ≤ F.topo_order.length := by
    rw [List.length_map]
    have := invF.visited_eq
    omega
  have hperm := hsubperm.perm_of_length_le hlen
  have hsrc_topo : ∀ a ∈ srcOrder E, a ∈ F.topo_order := by
    intro a ha
    have hm : a ∈ F.outg.map Prod.fst := (invF.outg_keys_mem a).mpr (Or.inl ha)
    exact hperm.mem_iff.mpr hm
  intro a ha
  have hsrcs : ∀ e ∈ E, e.2 = a → e.1 ∈ F.topo_order := by
    intro e he _
    exact hsrc_topo e.1 ((mem_srcOrder_iff E e.1).mpr ⟨e, he, rfl⟩)
  have heq := procCnt_eq_of_srcs E F.topo_order a hsrcs
  rcases (invF.ready a ha).mp heq with h1 | h1
  · exact h1
  · rw [hqe] at h1
    cases h1

/-! # The main theorems about topological_sort on a built graph -/

theorem topological_sort_ok_of_acyclic (E : List (α × α)) (hA : Acyclic E) :
    ∃ l, topological_sort (buildDag E) = Except.ok l ∧ l.Perm (nodeOrder E) ∧
      ∀ e ∈ E, posIn l e.1 < posIn l e.2 := by
  have hinv : SortInv E (sortLoop (sortFuel (initState (buildDag E))) (initState (buildDag E))) :=
    sortLoop_inv E _ _ (initState_inv E)
  have hqe := sortLoop_queue_nil (sortFuel (initState (buildDag E))) (initState (buildDag E))
    (Nat.le_refl _)
  have hall := final_topo_complete_of_acyclic E _ hA hinv hqe
  have hcount := final_count_eq E _ hinv hall
  refine ⟨_, ?_, final_topo_perm E _ hinv hall, ?_⟩
  · simp only [topological_sort]
    rw [if_pos hcount]
  · intro e he
    have h2 : e.2 ∈ (sortLoop (sortFuel (initState (buildDag E)))
        (initState (buildDag E))).topo_order :=
      hall e.2 (edge_snd_mem_nodeOrder E e he)
    exact (hinv.ordered e he h2).2

theorem topological_sort_acyclic_of_ok (E : List (α × α)) (l : List α)
    (h : topological_sort (buildDag E) = Except.ok l) : Acyclic E := by
  have hinv : SortInv E (sortLoop (sortFuel (initState (buildDag E))) (initState (buildDag E))) :=
    sortLoop_inv E _ _ (initState_inv E)
  have hqe := sortLoop_queue_nil (sortFuel (initState (buildDag E))) (initState (buildDag E))
    (Nat.le_refl _)
  by_cases hcount : (sortLoop (sortFuel (initState (buildDag E)))
      (initState (buildDag E))).visited_count =
      (sortLoop (sortFuel (initState (buildDag E))) (initState (buildDag E))).outg.length
  · have hall := final_complete_of_count E _ hinv hqe hcount
    refine ⟨fun a => posIn (sortLoop (sortFuel (initState (buildDag E)))
      (initState (buildDag E))).topo_order a, ?_⟩
    intro e he
    have h2 := hall e.2 (edge_snd_mem_nodeOrder E e he)
    exact (hinv.ordered e he h2).2
  · exfalso
    simp only [topological_sort] at h
    rw [if_neg hcount] at h
    cases h

theorem topological_sort_error_iff_cyclic (E : List (α × α)) :
    (∃ msg, topological_sort (buildDag E) = Except.error msg) ↔ ¬ Acyclic E := by
  constructor
  · rintro ⟨msg, hmsg⟩ hA
    obtain ⟨l, hok, _, _⟩ := topological_sort_ok_of_acyclic E hA
    rw [hok] at hmsg
    cases hmsg
  · intro hA
    cases hok : topological_sort (buildDag E) with
    | error msg => exact ⟨msg, rfl⟩
    | ok l => exact absurd (topological_sort_acyclic_of_ok E l hok) hA

/-! # Lifting to topo_sort_pipeline -/

theorem inputs_foldl_eq (nm : String) (ibs : List InputBinding) (g : PipelineDAG String) :
    ibs.foldl (fun g ib =>
      match ib.fromOp with
      | some s => if s = "" then g else add_input_edge g nm s
      | none => g) g
    = (ibs.filterMap fun ib =>
        match ib.fromOp with
        | some s => if s = "" then none else some (s, nm)
        | none => none).foldl (fun g e => add_input_edge g e.2 e.1) g := by
  induction ibs generalizing g with
  | nil => rfl
  | cons ib t ih =>
      cases hib : ib.fromOp with
      | none =>
          simp only [List.foldl_cons, List.filterMap_cons, hib]
          exact ih g
      | some s =>
          by_cases hs : s = ""
          · simp only [List.foldl_cons, List.filterMap_cons, hib, if_pos hs]
            exact ih g
          · simp only [List.foldl_cons, List.filterMap_cons, hib, if_neg hs, List.foldl_cons]
            exact ih _

theorem pipeline_dag_eq (ops : List OperatorConfig) (g : PipelineDAG String) :
    ops.foldl
      (fun g op => op.inputs.foldl
        (fun g ib =>
          match ib.fromOp with
          | some s => if s = "" then g else add_input_edge g op.name s
          | none => g) g) g
    = (pipelineEdges ops).foldl (fun g e => add_input_edge g e.2 e.1) g := by
  induction ops generalizing g with
  | nil => rfl
  | cons op t ih =>
      rw [List.foldl_cons, pipelineEdges, List.foldl_append, ← ih]
      have h1 := inputs_foldl_eq op.name op.inputs g
      rw [h1]
      rfl

theorem mem_opEdges_snd (op : OperatorConfig) (e : String × String) (h : e ∈ opEdges op) :
    e.2 = op.name := by
  rw [opEdges, List.mem_filterMap] at h
  obtain ⟨ib, _, hib⟩ := h
  cases hfrom : ib.fromOp with
  | none =>
      rw [hfrom] at hib
      have hib2 : (none : Option (String × String)) = some e := hib
      cases hib2
  | some s =>
      rw [hfrom] at hib
      have hib2 : (if s = "" then (none : Option (String × String))
          else some (s, op.name)) = some e := hib
      by_cases hs : s = ""
      · rw [if_pos hs] at hib2
        cases hib2
      · rw [if_neg hs] at hib2
        cases hib2
        rfl

theorem pipelineEdges_snd_mem (ops : List OperatorConfig) (e : String × String)
    (h : e ∈ pipelineEdges ops) : e.2 ∈ ops.map OperatorConfig.name := by
  induction ops with
  | nil => cases h
  | cons op t ih =>
      rw [pipelineEdges] at h
      rcases List.mem_append.mp h with h1 | h1
      · rw [List.map_cons, mem_opEdges_snd op e h1]
        exact List.mem_cons_self _ _
      · exact List.mem_cons_of_mem _ (ih h1)

theorem find_name_unique (l : List OperatorConfig) (op : OperatorConfig)
    (hnd : (l.map OperatorConfig.name).Nodup) (h : op ∈ l) :
    l.find? (fun o => o.name == op.name) = some op := by
  induction l with
  | nil => cases h
  | cons p t ih =>
      rcases List.mem_cons.mp h with h1 | hmem
      · rw [← h1]
        have hb : (op.name == op.name) = true := beq_self_eq_true _
        exact List.find?_cons_of_pos _ hb
      · rw [List.map_cons, List.nodup_cons] at hnd
        have hne : ¬ (p.name == op.name) = true := by
          simp only [beq_iff_eq]
          intro hEq
          exact hnd.1 (hEq ▸ List.mem_map.mpr ⟨op, hmem, rfl⟩)
        exact (@List.find?_cons_of_neg _ (fun o => o.name == op.name) p t hne).trans
          (ih hnd.2 hmem)

theorem opDictFind_of_nodup (ops : List OperatorConfig) (op : OperatorConfig)
    (hnd : (ops.map OperatorConfig.name).Nodup) (h : op ∈ ops) :
    opDictFind ops op.name = some op := by
  rw [opDictFind]
  apply find_name_unique
  · rw [List.map_reverse]
    exact List.nodup_reverse.mpr hnd
  · exact List.mem_reverse.mpr h

theorem opDictFind_exists (ops : List OperatorConfig) (n : String)
    (h : n ∈ ops.map OperatorConfig.name) :
    ∃ op ∈ ops, opDictFind ops n = some op ∧ op.name = n := by
  obtain ⟨op, hop, hname⟩ := List.mem_map.mp h
  have hfind : (ops.reverse.find? fun o => o.name == n).isSome := by
    rw [List.find?_isSome]
    exact ⟨op, List.mem_reverse.mpr hop, by simp [hname]⟩
  obtain ⟨op2, hop2⟩ := Option.isSome_iff_exists.mp hfind
  have hmem2 : op2 ∈ ops.reverse := List.mem_of_find?_eq_some hop2
  have hname2 : op2.name = n := by
    have := List.find?_some hop2
    simpa using this
  exact ⟨op2, List.mem_reverse.mp hmem2, hop2, hname2⟩

theorem opsOfNames_ok (ops : List OperatorConfig) (seq : List String)
    (h : ∀ n ∈ seq, n ∈ ops.map OperatorConfig.name) :
    ∃ l, opsOfNames ops seq = Except.ok l ∧ l.map OperatorConfig.name = seq ∧
      seq.map (opDictFind ops) = l.map some := by
  induction seq with
  | nil => exact ⟨[], rfl, rfl, rfl⟩
  | cons n t ih =>
      obtain ⟨op, hop, hfind, hname⟩ := opDictFind_exists ops n (h n (List.mem_cons_self _ _))
      obtain ⟨l, hl, hlname, hlfind⟩ := ih fun m hm => h m (List.mem_cons_of_mem _ hm)
      refine ⟨op :: l, ?_, ?_, ?_⟩
      · rw [opsOfNames, hfind, hl]
      · rw [List.map_cons, hlname, hname]
      · rw [List.map_cons, hfind, List.map_cons, hlfind]

theorem map_some_getD (l : List OperatorConfig) (d : OperatorConfig) :
    (l.map some).map (fun x : Option OperatorConfig => x.getD d) = l := by
  induction l with
  | nil => rfl
  | cons a t ih => simp [ih]

theorem nodeOrder_perm_names (ops : List OperatorConfig)
    (hnames : (ops.map OperatorConfig.name).Nodup)
    (hresolve : ∀ e ∈ pipelineEdges ops, e.1 ∈ ops.map OperatorConfig.name)
    (hpart : ∀ op ∈ ops, op.name ∈ nodeOrder (pipelineEdges ops)) :
    (nodeOrder (pipelineEdges ops)).Perm (ops.map OperatorConfig.name) := by
  apply List.perm_of_nodup_nodup_toFinset_eq (nodeOrder_nodup _) hnames
  apply List.toFinset.ext
  intro a
  constructor
  · intro h
    obtain ⟨e, he, hc⟩ := (mem_nodeOrder_iff _ a).mp h
    rcases hc with hc | hc
    · exact hc ▸ hresolve e he
    · exact hc ▸ pipelineEdges_snd_mem ops e he
  · intro h
    obtain ⟨op, hop, hname⟩ := List.mem_map.mp h
    exact hname ▸ hpart op hop

theorem topo_sort_pipeline_spec (ops : List OperatorConfig)
    (hnames : (ops.map OperatorConfig.name).Nodup)
    (hresolve : ∀ e ∈ pipelineEdges ops, e.1 ∈ ops.map OperatorConfig.name)
    (hpart : ops.length = 1 ∨ ∀ op ∈ ops, op.name ∈ nodeOrder (pipelineEdges ops))
    (hacyc : Acyclic (pipelineEdges ops)) :
    ∃ l, topo_sort_pipeline ops = Except.ok l ∧ l.Perm ops ∧
      ∀ e ∈ pipelineEdges ops, posIn (l.map OperatorConfig.name) e.1 <
        posIn (l.map OperatorConfig.name) e.2 := by
  by_cases hlen : ops.length = 1
  · refine ⟨ops, ?_, List.Perm.refl ops, ?_⟩
    · rw [topo_sort_pipeline, if_pos hlen]
    · intro e he
      exfalso
      obtain ⟨r, hr⟩ := hacyc
      have h1 : e.1 ∈ ops.map OperatorConfig.name := hresolve e he
      have h2 : e.2 ∈ ops.map OperatorConfig.name := pipelineEdges_snd_mem ops e he
      obtain ⟨op, hsing⟩ := List.length_eq_one.mp hlen
      rw [hsing] at h1 h2
      have he1 : e.1 = op.name := by simpa using h1
      have he2 : e.2 = op.name := by simpa using h2
      have := hr e he
      rw [he1, he2] at this
      omega
  · have hpart2 : ∀ op ∈ ops, op.name ∈ nodeOrder (pipelineEdges ops) := by
      rcases hpart with h | h
      · exact absurd h hlen
      · exact h
    obtain ⟨seq, hok, hperm_seq, horder⟩ :=
      topological_sort_ok_of_acyclic (pipelineEdges ops) hacyc
    have hperm_names : seq.Perm (ops.map OperatorConfig.name) :=
      hperm_seq.trans (nodeOrder_perm_names ops hnames hresolve hpart2)
    have hseq_names : ∀ n ∈ seq, n ∈ ops.map OperatorConfig.name :=
      fun n hn => hperm_names.subset hn
    obtain ⟨l, hl, hlname, hlfind⟩ := opsOfNames_ok ops seq hseq_names
    have hperm_ops : l.Perm ops := by
      have h1 : (seq.map (opDictFind ops)).Perm ((ops.map OperatorConfig.name).map (opDictFind ops)) :=
        hperm_names.map _
      have h2 : (ops.map OperatorConfig.name).map (opDictFind ops) = ops.map some := by
        rw [List.map_map]
        apply List.map_congr_left
        intro op hop
        exact opDictFind_of_nodup ops op hnames hop
      rw [hlfind, h2] at h1
      have h3 := h1.map fun x : Option OperatorConfig =>
        x.getD ⟨"", "", [], [], [], [], [], []⟩
      rw [map_some_getD, map_some_getD] at h3
      exact h3
    refine ⟨l, ?_, hperm_ops, ?_⟩
    · have hbd : (pipelineEdges ops).foldl (fun g e => add_input_edge g e.2 e.1)
          PipelineDAG.empty = buildDag (pipelineEdges ops) := rfl
      have hsort : topo_sort_pipeline ops = opsOfNames ops seq := by
        simp only [topo_sort_pipeline]
        rw [if_neg hlen, pipeline_dag_eq ops PipelineDAG.empty, hbd, hok]
      rw [hsort]
      exact hl
    · intro e he
      rw [hlname]
      exact horder e he

/-! # Dictionary merge lemmas (update_variables) -/

theorem dictFind_dictInsert (l : List (String × String)) (k v k' : String) :
    dictFind (dictInsert l k v) k' = if k = k' then some v else dictFind l k' := by
  induction l with
  | nil => simp [dictInsert, dictFind]
  | cons p t ih =>
      obtain ⟨k0, v0⟩ := p
      by_cases h0 : k0 = k
      · subst h0
        by_cases h1 : k0 = k' <;> simp [dictInsert, dictFind, h1]
      · by_cases h1 : k0 = k'
        · subst h1
          have : ¬ k = k0 := fun h => h0 h.symm
          simp [dictInsert, dictFind, h0, this]
        · simp [dictInsert, dictFind, h0, h1, ih]

theorem dictFind_eq_none_iff (l : List (String × String)) (k : String) :
    dictFind l k = none ↔ ∀ p ∈ l, ¬ p.1 = k := by
  induction l with
  | nil => simp [dictFind]
  | cons p t ih =>
      obtain ⟨k0, v0⟩ := p
      by_cases h0 : k0 = k
      · simp [dictFind, h0]
      · simp [dictFind, h0, ih]

theorem dictFind_dictMerge_absent (a b : List (String × String)) (k : String)
    (h : dictFind b k = none) :
    dictFind (dictMerge a b) k = dictFind a k := by
  induction b generalizing a with
  | nil => rfl
  | cons p t ih =>
      obtain ⟨k0, v0⟩ := p
      rw [dictFind_eq_none_iff] at h
      have hk0 : ¬ k0 = k := h (k0, v0) (List.mem_cons_self _ _)
      have ht : dictFind t k = none := by
        rw [dictFind_eq_none_iff]
        exact fun p hp => h p (List.mem_cons_of_mem _ hp)
      show dictFind (dictMerge (dictInsert a k0 v0) t) k = dictFind a k
      rw [ih _ ht, dictFind_dictInsert, if_neg hk0]

theorem dictFind_dictMerge_present (a b : List (String × String)) (k v : String)
    (hnd : (b.map Prod.fst).Nodup) (h : dictFind b k = some v) :
    dictFind (dictMerge a b) k = some v := by
  induction b generalizing a with
  | nil => cases h
  | cons p t ih =>
      obtain ⟨k0, v0⟩ := p
      rw [List.map_cons, List.nodup_cons] at hnd
      by_cases hk0 : k0 = k
      · subst hk0
        have hv : v0 = v := by
          simpa [dictFind] using h
        subst hv
        have ht : dictFind t k0 = none := by
          rw [dictFind_eq_none_iff]
          intro p hp hpk
          exact hnd.1 (hpk ▸ List.mem_map.mpr ⟨p, hp, rfl⟩)
        show dictFind (dictMerge (dictInsert a k0 v0) t) k0 = some v0
        rw [dictFind_dictMerge_absent _ _ _ ht, dictFind_dictInsert, if_pos rfl]
      · have ht : dictFind t k = some v := by
          simpa [dictFind, hk0] using h
        show dictFind (dictMerge (dictInsert a k0 v0) t) k = some v
        exact ih _ hnd.2 ht

/-! # Sampling length invariant -/

theorem sample_metrics_step (online : ℚ) (c : ContainerState) (reading : Option RawMetrics)
    (h : c.metrics.length + 1 = c.raw_metrics.length + (if c.raw_metrics = [] then 1 else 0)) :
    (sample_metrics online c reading).metrics.length + 1 =
      (sample_metrics online c reading).raw_metrics.length +
      (if (sample_metrics online c reading).raw_metrics = [] then 1 else 0) := by
  cases reading with
  | none => exact h
  | some raw =>
      cases hl : c.raw_metrics.getLast? with
      | none =>
          have hnil : c.raw_metrics = [] := List.getLast?_eq_none_iff.mp hl
          have hm : c.metrics.length = 0 := by
            rw [hnil] at h
            simpa using h
          simp [sample_metrics, hl, hnil, hm]
      | some prev =>
          have hne : ¬ c.raw_metrics = [] := by
            intro hc
            rw [hc] at hl
            cases hl
          rw [if_neg hne] at h
          have hne2 : ¬ c.raw_metrics ++ [raw] = [] := by simp
          simp only [sample_metrics, hl, List.length_append, List.length_cons,
            List.length_nil, if_neg hne2]
          omega

theorem run_sampling_invariant (online : ℚ) (readings : List (Option RawMetrics)) :
    (run_sampling online readings).metrics.length + 1 =
      (run_sampling online readings).raw_metrics.length +
      (if (run_sampling online readings).raw_metrics = [] then 1 else 0) := by
  rw [run_sampling]
  have h : ∀ (c : ContainerState),
      c.metrics.length + 1 = c.raw_metrics.length + (if c.raw_metrics = [] then 1 else 0) →
      (readings.foldl (sample_metrics online) c).metrics.length + 1 =
        (readings.foldl (sample_metrics online) c).raw_metrics.length +
        (if (readings.foldl (sample_metrics online) c).raw_metrics = [] then 1 else 0) := by
    induction readings with
    | nil => exact fun c hc => hc
    | cons r t ih =>
        intro c hc
        rw [List.foldl_cons]
        exact ih _ (sample_metrics_step online c r hc)
  exact h ⟨[], []⟩ (by simp)

/-! # Summary helper lemmas -/

theorem le_foldl_max (t : List ℚ) (a : ℚ) : a ≤ t.foldl max a := by
  induction t generalizing a with
  | nil => exact le_refl a
  | cons b r ih =>
      rw [List.foldl_cons]
      exact le_trans (le_max_left a b) (ih (max a b))

theorem foldl_max_le_of_mem (t : List ℚ) (a x : ℚ) (h : x ∈ t) : x ≤ t.foldl max a := by
  induction t generalizing a with
  | nil => cases h
  | cons b r ih =>
      rw [List.foldl_cons]
      rcases List.mem_cons.mp h with h1 | h1
      · rw [h1]
        exact le_trans (le_max_right a b) (le_foldl_max r (max a b))
      · exact ih (max a b) h1

theorem foldl_max_mem (t : List ℚ) (a : ℚ) : t.foldl max a = a ∨ t.foldl max a ∈ t := by
  induction t generalizing a with
  | nil => exact Or.inl rfl
  | cons b r ih =>
      rw [List.foldl_cons]
      rcases ih (max a b) with h1 | h1
      · rcases max_choice a b with h2 | h2
        · exact Or.inl (h1.trans h2)
        · refine Or.inr ?_
          rw [h1, h2]
          exact List.mem_cons_self b r
      · exact Or.inr (List.mem_cons_of_mem _ h1)

theorem maxList_spec (l : List ℚ) (h : l ≠ []) :
    maxList l ∈ l ∧ ∀ x ∈ l, x ≤ maxList l := by
  cases l with
  | nil => exact absurd rfl h
  | cons a t =>
      constructor
      · rcases foldl_max_mem t a with h1 | h1
        · rw [maxList, h1]
          exact List.mem_cons_self a t
        · exact List.mem_cons_of_mem _ (by rw [maxList]; exact h1)
      · intro x hx
        rcases List.mem_cons.mp hx with h1 | h1
        · exact h1 ▸ le_foldl_max t a
        · exact foldl_max_le_of_mem t a x h1

theorem pyRoundInt_intCast (n : ℤ) : pyRoundInt (n : ℚ) = n := by
  rw [pyRoundInt]
  have hf : ⌊(n : ℚ)⌋ = n := Int.floor_intCast n
  rw [hf]
  have h0 : (n : ℚ) - (n : ℤ) = 0 := by
    push_cast
    ring
  rw [h0]
  norm_num

theorem pyRound3_of_int (x : ℚ) (n : ℤ) (h : x * 1000 = (n : ℚ)) : pyRound3 x = x := by
  rw [pyRound3, h, pyRoundInt_intCast]
  field_simp at h ⊢
  linarith

/-! # Claims about the topological sorter -/

/-- C1 (amended): for every operator list with pairwise distinct names, in
which every `from` reference names an operator of the list, every operator
takes part in at least one dependency edge (unless the list is a single
operator), and whose dependency edges are acyclic, `topo_sort_pipeline`
returns a permutation of the input operator list in which every operator
named by a `from` binding appears before the dependent operator.  (The
unamended claim fails: an operator with no edges at all is dropped, see the
counterexample.) -/
theorem topo_sort_pipeline_acyclic_perm (ops : List OperatorConfig)
    (hnames : (ops.map OperatorConfig.name).Nodup)
    (hresolve : ∀ e ∈ pipelineEdges ops, e.1 ∈ ops.map OperatorConfig.name)
    (hpart : ops.length = 1 ∨ ∀ op ∈ ops, op.name ∈ nodeOrder (pipelineEdges ops))
    (hacyc : Acyclic (pipelineEdges ops)) :
    ∃ l, topo_sort_pipeline ops = Except.ok l ∧ l.Perm ops ∧
      ∀ e ∈ pipelineEdges ops, posIn (l.map OperatorConfig.name) e.1 <
        posIn (l.map OperatorConfig.name) e.2 :=
  topo_sort_pipeline_spec ops hnames hresolve hpart hacyc

/-- Witness for C1: the three-operator pipeline
Input1 ← Input2 ← Input3, handed over in scrambled order, is sorted into a
permutation that respects both edges. -/
theorem topo_sort_pipeline_acyclic_perm_witness :
    ∃ l, topo_sort_pipeline
        [simpleOp "Input2" ["Input1"], simpleOp "Input3" ["Input2"], simpleOp "Input1" []] =
        Except.ok l ∧
      l.Perm [simpleOp "Input2" ["Input1"], simpleOp "Input3" ["Input2"], simpleOp "Input1" []] ∧
      ∀ e ∈ pipelineEdges
        [simpleOp "Input2" ["Input1"], simpleOp "Input3" ["Input2"], simpleOp "Input1" []],
        posIn (l.map OperatorConfig.name) e.1 < posIn (l.map OperatorConfig.name) e.2 :=
  topo_sort_pipeline_acyclic_perm
    [simpleOp "Input2" ["Input1"], simpleOp "Input3" ["Input2"], simpleOp "Input1" []]
    (by decide) (by decide) (Or.inr (by decide))
    ⟨fun n => if n = "Input1" then 0 else if n = "Input2" then 1 else 2, by decide⟩

/-- Counterexample to C1 as stated: two operators with no `from` bindings
form an acyclic (empty) dependency graph, yet `topo_sort_pipeline` returns
the empty list, which is not a permutation of the input. -/
theorem topo_sort_pipeline_drops_isolated :
    Acyclic (pipelineEdges [simpleOp "A" [], simpleOp "B" []]) ∧
    topo_sort_pipeline [simpleOp "A" [], simpleOp "B" []] = Except.ok [] ∧
    ¬ ∃ l, topo_sort_pipeline [simpleOp "A" [], simpleOp "B" []] = Except.ok l ∧
        l.Perm [simpleOp "A" [], simpleOp "B" []] := by
  refine ⟨⟨fun _ => 0, by decide⟩, rfl, ?_⟩
  rintro ⟨l, hok, hperm⟩
  have hval : topo_sort_pipeline [simpleOp "A" [], simpleOp "B" []] =
      Except.ok ([] : List OperatorConfig) := rfl
  rw [hval] at hok
  have hl : ([] : List OperatorConfig) = l := by
    injection hok
  rw [← hl] at hperm
  have := hperm.length_eq
  simp at this

/-- C3: a graph registered through `add_input_edge` raises the cycle error
on `topological_sort` exactly when its directed edges contain a cycle (no
ranking of the nodes increases along every edge); for every acyclic
registered graph the sort succeeds. -/
theorem topological_sort_raises_iff_cycle {α : Type} [DecidableEq α] (calls : List (α × α)) :
    ((∃ msg, topological_sort (registeredDag calls) = Except.error msg) ↔
      ¬ Acyclic (calls.map fun p => (p.2, p.1))) ∧
    (Acyclic (calls.map fun p => (p.2, p.1)) →
      ∃ l, topological_sort (registeredDag calls) = Except.ok l) := by
  rw [registeredDag_eq_buildDag]
  refine ⟨topological_sort_error_iff_cyclic _, fun hA => ?_⟩
  obtain ⟨l, hok, _, _⟩ := topological_sort_ok_of_acyclic _ hA
  exact ⟨l, hok⟩

/-- C4: the queue ties are broken strictly first-in-first-out by
registration order, never by node value: registering the edges
5→2, 5→0, 4→0, 4→1, 2→3, 3→1 in that order yields [5, 4, 2, 0, 3, 1],
while registering the same edge set starting from the 4→· edges yields
[4, 5, 2, 0, 3, 1]. -/
theorem topological_sort_fifo_registration :
    topological_sort (registeredDag ([(2, 5), (0, 5), (0, 4), (1, 4), (3, 2), (1, 3)] :
        List (ℕ × ℕ))) = Except.ok [5, 4, 2, 0, 3, 1] ∧
    topological_sort (registeredDag ([(0, 4), (1, 4), (2, 5), (0, 5), (3, 2), (1, 3)] :
        List (ℕ × ℕ))) = Except.ok [4, 5, 2, 0, 3, 1] ∧
    ([(2, 5), (0, 5), (0, 4), (1, 4), (3, 2), (1, 3)] : List (ℕ × ℕ)).Perm
      [(0, 4), (1, 4), (2, 5), (0, 5), (3, 2), (1, 3)] :=
  ⟨rfl, rfl, by decide⟩

/-- C9 (amended): a single-operator pipeline is returned unchanged, and on
single-operator lists re-sorting the output reproduces it.  (Idempotence
for arbitrary operator lists fails, see the counterexample.) -/
theorem topo_sort_pipeline_single_identity : ∀ op : OperatorConfig,
    topo_sort_pipeline [op] = Except.ok [op] ∧
    (topo_sort_pipeline [op] >>= topo_sort_pipeline) = topo_sort_pipeline [op] :=
  fun _ => ⟨rfl, rfl⟩

/-- Counterexample to C9 as stated: re-sorting the output of
`topo_sort_pipeline` can change the order.  Sources are enqueued by the
registration order of the current input list, which changes after the
first sort. -/
theorem topo_sort_pipeline_not_idempotent :
    topo_sort_pipeline
        [simpleOp "c" ["s1", "b"], simpleOp "s1" [], simpleOp "s2" [], simpleOp "b" ["s2"]] =
      Except.ok
        [simpleOp "s1" [], simpleOp "s2" [], simpleOp "b" ["s2"], simpleOp "c" ["s1", "b"]] ∧
    topo_sort_pipeline
        [simpleOp "s1" [], simpleOp "s2" [], simpleOp "b" ["s2"], simpleOp "c" ["s1", "b"]] =
      Except.ok
        [simpleOp "s2" [], simpleOp "s1" [], simpleOp "b" ["s2"], simpleOp "c" ["s1", "b"]] ∧
    ¬ ([simpleOp "s2" [], simpleOp "s1" [], simpleOp "b" ["s2"], simpleOp "c" ["s1", "b"]] =
        [simpleOp "s1" [], simpleOp "s2" [], simpleOp "b" ["s2"], simpleOp "c" ["s1", "b"]]) :=
  ⟨rfl, rfl, by decide⟩

/-! # Claims about metrics processing and the rest of the tool -/

/-- C2: the derived metrics entry averages the two timestamps, averages the
two memory readings and converts to MB, and sets cpu_percent to 0 whenever
the container-CPU delta or the host-CPU delta is not positive, else to
(container delta in seconds) / (host delta) × cores × 100; the worked
example with 4 cores gives timestamp 2.5, memory 7.5 MB, and the stated
cpu expression. -/
theorem process_raw_data_spec :
    (∀ (cores : ℚ) (prev cur : RawMetrics),
      (process_raw_data cores prev cur).timestamp = (prev.timestamp + cur.timestamp) / 2 ∧
      (process_raw_data cores prev cur).memory = (prev.memory + cur.memory) / 2 / 1000000 ∧
      (cur.cpu - prev.cpu ≤ 0 ∨ cur.sys_cpu - prev.sys_cpu ≤ 0 →
        (process_raw_data cores prev cur).cpu_percent = 0) ∧
      (0 < cur.cpu - prev.cpu → 0 < cur.sys_cpu - prev.sys_cpu →
        (process_raw_data cores prev cur).cpu_percent =
          (cur.cpu - prev.cpu) / 1000000000 / (cur.sys_cpu - prev.sys_cpu) * cores * 100)) ∧
    (process_raw_data 4 exampleRawPrev exampleRawCur).timestamp = 2.5 ∧
    (process_raw_data 4 exampleRawPrev exampleRawCur).memory = 7.5 ∧
    (process_raw_data 4 exampleRawPrev exampleRawCur).cpu_percent =
      ((1000000 - 800000 : ℚ) / 1000000000) / (0.60) * 4 * 100 := by
  refine ⟨?_, ?_, ?_, ?_⟩
  · intro cores prev cur
    have hpc : (process_raw_data cores prev cur).cpu_percent =
        if 0 < (cur.cpu - prev.cpu) / NS_PER_S ∧ 0 < cur.sys_cpu - prev.sys_cpu then
          (cur.cpu - prev.cpu) / NS_PER_S / (cur.sys_cpu - prev.sys_cpu) * cores * 100
        else 0 := rfl
    refine ⟨rfl, rfl, ?_, ?_⟩
    · intro h
      rw [hpc, if_neg]
      rintro ⟨h1, h2⟩
      rcases h with h3 | h3
      · rw [NS_PER_S, div_pos_iff] at h1
        rcases h1 with ⟨ha, _⟩ | ⟨_, hb⟩
        · linarith
        · norm_num at hb
      · linarith
    · intro h1 h2
      rw [hpc, if_pos ⟨div_pos h1 (by rw [NS_PER_S]; norm_num), h2⟩, NS_PER_S]
  · show ((2 : ℚ) + 3) / 2 = 2.5
    norm_num
  · show ((6500000 : ℚ) + 8500000) / 2 / B_MB_FACTOR = 7.5
    rw [B_MB_FACTOR]
    norm_num
  · have hpc : (process_raw_data 4 exampleRawPrev exampleRawCur).cpu_percent =
        if 0 < ((1000000 : ℚ) - 800000) / NS_PER_S ∧ 0 < (14000000.60 : ℚ) - 14000000 then
          ((1000000 : ℚ) - 800000) / NS_PER_S / ((14000000.60 : ℚ) - 14000000) * 4 * 100
        else 0 := rfl
    rw [hpc, if_pos ⟨div_pos (by norm_num) (by rw [NS_PER_S]; norm_num), by norm_num⟩,
      NS_PER_S]
    norm_num

/-- C5: the per-operator summary reports the (3-decimal-rounded) average
and maximum of cpu_percent and memory over the derived metrics, recommends
ceil(max_cpu_percent / 100) cores, and recommends the memory maximum plus
a 100 MB buffer rounded up to a multiple of 256; in particular a 100.05
percent maximum gives 2 cores, 50.55 gives 1 core, a 148.05 MB maximum
gives 256 MB and 156.05 gives 512 MB. -/
theorem print_operator_summary_spec :
    (∀ metrics : List Metrics, metrics ≠ [] →
      (∃ mc ∈ metrics.map Metrics.cpu_percent,
        (∀ x ∈ metrics.map Metrics.cpu_percent, x ≤ mc) ∧
        (print_operator_summary metrics).cpu_max = pyRound3 mc) ∧
      (∃ mm ∈ metrics.map Metrics.memory,
        (∀ x ∈ metrics.map Metrics.memory, x ≤ mm) ∧
        (print_operator_summary metrics).memory_max = pyRound3 mm) ∧
      (print_operator_summary metrics).cpu_avg =
        pyRound3 ((metrics.map Metrics.cpu_percent).sum / metrics.length) ∧
      (print_operator_summary metrics).memory_avg =
        pyRound3 ((metrics.map Metrics.memory).sum / metrics.length) ∧
      (print_operator_summary metrics).recommended_cpu =
        ⌈(print_operator_summary metrics).cpu_max / 100⌉ ∧
      (print_operator_summary metrics).recommended_memory =
        (⌈((print_operator_summary metrics).memory_max + 100) / 256⌉ : ℚ) * 256) ∧
    (print_operator_summary [⟨0, 100.05, 148.05⟩]).recommended_cpu = 2 ∧
    (print_operator_summary [⟨0, 50.55, 156.05⟩]).recommended_cpu = 1 ∧
    (print_operator_summary [⟨0, 100.05, 148.05⟩]).recommended_memory = 256 ∧
    (print_operator_summary [⟨0, 50.55, 156.05⟩]).recommended_memory = 512 := by
  refine ⟨?_, ?_, ?_, ?_, ?_⟩
  · intro metrics hne
    have hc := maxList_spec (metrics.map Metrics.cpu_percent)
      (by intro h; exact hne (by simpa using h))
    have hm := maxList_spec (metrics.map Metrics.memory)
      (by intro h; exact hne (by simpa using h))
    exact ⟨⟨maxList (metrics.map Metrics.cpu_percent), hc.1, hc.2, rfl⟩,
      ⟨maxList (metrics.map Metrics.memory), hm.1, hm.2, rfl⟩, rfl, rfl, rfl, rfl⟩
  · have h1 : (print_operator_summary [⟨0, 100.05, 148.05⟩]).recommended_cpu =
        ⌈pyRound3 (100.05 : ℚ) / 100⌉ := rfl
    rw [h1, pyRound3_of_int _ 100050 (by norm_num),
      show ((100.05 : ℚ) / 100) = 2001 / 2000 by norm_num]
    exact Int.ceil_eq_iff.mpr ⟨by norm_num, by norm_num⟩
  · have h1 : (print_operator_summary [⟨0, 50.55, 156.05⟩]).recommended_cpu =
        ⌈pyRound3 (50.55 : ℚ) / 100⌉ := rfl
    rw [h1, pyRound3_of_int _ 50550 (by norm_num),
      show ((50.55 : ℚ) / 100) = 1011 / 2000 by norm_num]
    exact Int.ceil_eq_iff.mpr ⟨by norm_num, by norm_num⟩
  · have h1 : (print_operator_summary [⟨0, 100.05, 148.05⟩]).recommended_memory =
        (⌈(pyRound3 (148.05 : ℚ) + 100) / 256⌉ : ℚ) * 256 := rfl
    rw [h1, pyRound3_of_int _ 148050 (by norm_num),
      show (((148.05 : ℚ) + 100) / 256) = 4961 / 5120 by norm_num,
      show (⌈(4961 / 5120 : ℚ)⌉ : ℤ) = 1 from Int.ceil_eq_iff.mpr ⟨by norm_num, by norm_num⟩]
    norm_num
  · have h1 : (print_operator_summary [⟨0, 50.55, 156.05⟩]).recommended_memory =
        (⌈(pyRound3 (156.05 : ℚ) + 100) / 256⌉ : ℚ) * 256 := rfl
    rw [h1, pyRound3_of_int _ 156050 (by norm_num),
      show (((156.05 : ℚ) + 100) / 256) = 5121 / 5120 by norm_num,
      show (⌈(5121 / 5120 : ℚ)⌉ : ℤ) = 2 from Int.ceil_eq_iff.mpr ⟨by norm_num, by norm_num⟩]
    norm_num

/-- C6: over any sequence of sampling ticks, the derived metrics list is
always exactly one shorter than the raw metrics list (and empty when at
most one raw sample exists): a metrics entry only ever comes from two
adjacent raw samples, and an unpaired trailing raw sample yields none. -/
theorem run_sampling_metrics_length : ∀ (online : ℚ) (readings : List (Option RawMetrics)),
    (run_sampling online readings).metrics.length =
      (run_sampling online readings).raw_metrics.length - 1 ∧
    ((run_sampling online readings).raw_metrics.length = 1 →
      (run_sampling online readings).metrics = []) := by
  intro online readings
  have h := run_sampling_invariant online readings
  have hfirst : (run_sampling online readings).metrics.length =
      (run_sampling online readings).raw_metrics.length - 1 := by
    by_cases hnil : (run_sampling online readings).raw_metrics = []
    · have h0 : (run_sampling online readings).raw_metrics.length = 0 := by
        rw [hnil]
        rfl
      rw [if_pos hnil] at h
      omega
    · rw [if_neg hnil] at h
      omega
  refine ⟨hfirst, fun h1 => ?_⟩
  have h2 : (run_sampling online readings).metrics.length = 0 := by
    rw [hfirst, h1]
  exact List.length_eq_zero.mp h2

/-- C7: during identifier acquisition the first drained line decides: a
line of any length other than 65 bytes (64-character identifier plus the
line terminator) terminates the launch fatally at once, a 65-byte line is
stripped and accepted as the container identifier, and with no drained
line the loop keeps waiting. -/
theorem acquire_container_id_spec : ∀ (raw_id : List Nat) (rest : List (List Nat)),
    (¬ raw_id.length = 65 → acquire_container_id (raw_id :: rest) = IdOutcome.fatal raw_id) ∧
    (raw_id.length = 65 → acquire_container_id (raw_id :: rest) =
      IdOutcome.accepted (pyStrip raw_id)) ∧
    acquire_container_id [] = IdOutcome.waiting := by
  intro raw rest
  refine ⟨fun h => ?_, fun h => ?_, rfl⟩
  · simp [acquire_container_id, h]
  · simp [acquire_container_id, h]

/-- C8: the run-mode decision errors out exactly when some operator
declares models and some operator declares services; with only models it
returns the model-repository mode, with only services the
pipeline-services mode, and with neither the no-inference-server mode. -/
theorem decide_method_to_run_triton_spec : ∀ ops : List OperatorConfig,
    ((∃ op ∈ ops, op.models ≠ []) → (∃ op ∈ ops, op.services ≠ []) →
      decide_method_to_run_triton ops = Except.error
        "CPOST does not support model_repository and pipeline services at the same time") ∧
    ((∃ op ∈ ops, op.models ≠ []) → ¬ (∃ op ∈ ops, op.services ≠ []) →
      decide_method_to_run_triton ops = Except.ok RUN_MODE.MODEL_REPO) ∧
    (¬ (∃ op ∈ ops, op.models ≠ []) → (∃ op ∈ ops, op.services ≠ []) →
      decide_method_to_run_triton ops = Except.ok RUN_MODE.PIPELINE_SERVICES) ∧
    (¬ (∃ op ∈ ops, op.models ≠ []) → ¬ (∃ op ∈ ops, op.services ≠ []) →
      decide_method_to_run_triton ops = Except.ok RUN_MODE.NO_INFERENCE_SERVER) ∧
    (∀ msg, decide_method_to_run_triton ops = Except.error msg →
      (∃ op ∈ ops, op.models ≠ []) ∧ (∃ op ∈ ops, op.services ≠ [])) := by
  intro ops
  have hm : (ops.any fun op => decide (op.models ≠ [])) = true ↔
      ∃ op ∈ ops, op.models ≠ [] := by
    simp [List.any_eq_true]
  have hs : (ops.any fun op => decide (op.services ≠ [])) = true ↔
      ∃ op ∈ ops, op.services ≠ [] := by
    simp [List.any_eq_true]
  by_cases hmb : (ops.any fun op => decide (op.models ≠ [])) = true <;>
    by_cases hsb : (ops.any fun op => decide (op.services ≠ [])) = true
  · have hres : decide_method_to_run_triton ops = Except.error
        "CPOST does not support model_repository and pipeline services at the same time" := by
      have hcond : ((ops.any fun op => decide (op.models ≠ [])) &&
          (ops.any fun op => decide (op.services ≠ []))) = true := by
        rw [hmb, hsb]
        rfl
      simp only [decide_method_to_run_triton]
      rw [if_pos hcond]
    exact ⟨fun _ _ => hres, fun _ hno => absurd (hs.mp hsb) hno,
      fun hno _ => absurd (hm.mp hmb) hno, fun hno _ => absurd (hm.mp hmb) hno,
      fun msg _ => ⟨hm.mp hmb, hs.mp hsb⟩⟩
  · have hsb2 : (ops.any fun op => decide (op.services ≠ [])) = false :=
      Bool.not_eq_true _ ▸ hsb
    have hres : decide_method_to_run_triton ops = Except.ok RUN_MODE.MODEL_REPO := by
      have hcond : ¬ (((ops.any fun op => decide (op.models ≠ [])) &&
          (ops.any fun op => decide (op.services ≠ []))) = true) := by
        rw [hmb, hsb2]
        exact Bool.false_ne_true
      simp only [decide_method_to_run_triton]
      rw [if_neg hcond, if_pos hmb]
    refine ⟨fun _ hserv => absurd (hs.mpr hserv) hsb, fun _ _ => hres,
      fun hno _ => absurd (hm.mp hmb) hno, fun hno _ => absurd (hm.mp hmb) hno,
      fun msg hmsg => ?_⟩
    rw [hres] at hmsg
    cases hmsg
  · have hmb2 : (ops.any fun op => decide (op.models ≠ [])) = false :=
      Bool.not_eq_true _ ▸ hmb
    have hres : decide_method_to_run_triton ops = Except.ok RUN_MODE.PIPELINE_SERVICES := by
      have hcond : ¬ (((ops.any fun op => decide (op.models ≠ [])) &&
          (ops.any fun op => decide (op.services ≠ []))) = true) := by
        rw [hmb2]
        exact Bool.false_ne_true
      simp only [decide_method_to_run_triton]
      rw [if_neg hcond, if_neg (hmb2 ▸ Bool.false_ne_true), if_pos hsb]
    refine ⟨fun hmod _ => absurd (hm.mpr hmod) hmb, fun hmod _ => absurd (hm.mpr hmod) hmb,
      fun _ _ => hres, fun _ hno => absurd (hs.mp hsb) hno, fun msg hmsg => ?_⟩
    rw [hres] at hmsg
    cases hmsg
  · have hmb2 : (ops.any fun op => decide (op.models ≠ [])) = false :=
      Bool.not_eq_true _ ▸ hmb
    have hsb2 : (ops.any fun op => decide (op.services ≠ [])) = false :=
      Bool.not_eq_true _ ▸ hsb
    have hres : decide_method_to_run_triton ops = Except.ok RUN_MODE.NO_INFERENCE_SERVER := by
      have hcond : ¬ (((ops.any fun op => decide (op.models ≠ [])) &&
          (ops.any fun op => decide (op.services ≠ []))) = true) := by
        rw [hmb2]
        exact Bool.false_ne_true
      simp only [decide_method_to_run_triton]
      rw [if_neg hcond, if_neg (hmb2 ▸ Bool.false_ne_true),
        if_neg (hsb2 ▸ Bool.false_ne_true)]
    refine ⟨fun hmod _ => absurd (hm.mpr hmod) hmb, fun hmod _ => absurd (hm.mpr hmod) hmb,
      fun _ hserv => absurd (hs.mpr hserv) hsb, fun _ _ => hres, fun msg hmsg => ?_⟩
    rw [hres] at hmsg
    cases hmsg

/-- C10: `update_variables` keeps every key already present in the
operator's own variables at its original value, adds from the injected
dictionary only the keys the operator does not declare, and when the
operator declares no variables the result is exactly the injected
dictionary. -/
theorem update_variables_spec : ∀ (op : OperatorConfig) (var_dict : List (String × String)),
    (op.«variables».map Prod.fst).Nodup →
    ((∀ k v, dictFind op.«variables» k = some v →
        dictFind (op.update_variables var_dict).«variables» k = some v) ∧
      (∀ k, dictFind op.«variables» k = none →
        dictFind (op.update_variables var_dict).«variables» k = dictFind var_dict k) ∧
      (op.«variables» = [] → (op.update_variables var_dict).«variables» = var_dict)) := by
  intro op vd hnd
  by_cases hv : op.«variables» = []
  · have hupd : (op.update_variables vd).«variables» = vd := by
      rw [OperatorConfig.update_variables, if_pos hv]
    refine ⟨fun k v hk => ?_, fun k hk => ?_, fun _ => hupd⟩
    · rw [hv] at hk
      cases hk
    · rw [hupd]
  · have hupd : (op.update_variables vd).«variables» = dictMerge vd op.«variables» := by
      rw [OperatorConfig.update_variables, if_neg hv]
    refine ⟨fun k v hk => ?_, fun k hk => ?_, fun hc => absurd hc hv⟩
    · rw [hupd]
      exact dictFind_dictMerge_present vd op.«variables» k v hnd hk
    · rw [hupd]
      exact dictFind_dictMerge_absent vd op.«variables» k hk

/-- Witness for C10: an operator with no declared variables receives
exactly the injected connection dictionary. -/
theorem update_variables_spec_witness :
    ((simpleOp "w" []).update_variables [("K", "V")]).«variables» = [("K", "V")] :=
  (update_variables_spec (simpleOp "w" []) [("K", "V")] (by decide)).2.2 rfl

end Cpost
